import Mathlib

/-!
# nagios-perfdata: the performance-data parser

A shallow embedding of `perfdata.go` (package `perfdata`) and theorems about it.

* Go strings are modelled as lists of Unicode characters (`Str`).  The program
  compares byte lengths only between a string and one of its own prefixes, and
  reads one byte only right after such a prefix, so counting characters instead
  of bytes changes none of its decisions.
* The three regular expressions of the program are written as terms of a small
  regular-expression type (`Regex`) and run by a backtracking matcher that
  lists the matches in the order of preference of Go's `regexp` package
  (leftmost-first: a greedy operator prefers more repetitions, `?` prefers to
  take its operand).
* What the program takes from Go's standard library and is not part of the
  repository (`float64`, `math.NaN`, `strconv.ParseFloat`, `strconv.Quote`) is a
  parameter `L : GoLib` of the embedding.  `refLib` is one concrete library used
  to run the program on concrete inputs.
* `perfdataParseValue` reads lists with total accessors; a second embedding,
  `perfdataParseValueChecked`, evaluates every index and slice expression with
  Go's range check and is proved to agree with it.
-/

namespace NagiosPerfdata

/-- Go `string`, as the list of its characters. -/
abbrev Str := List Char

deriving instance DecidableEq for Except

/-! ## Standard library interface -/

/-- The two sentinel errors a `*strconv.NumError` of `ParseFloat` wraps:
`strconv.ErrSyntax` and `strconv.ErrRange`. -/
inductive NumErrKind
  | syntaxErr
  | rangeErr
deriving DecidableEq, Repr

/-- Text of `strconv.ErrSyntax.Error()` and `strconv.ErrRange.Error()`. -/
def NumErrKind.text : NumErrKind → Str
  | .syntaxErr => "invalid syntax".toList
  | .rangeErr => "value out of range".toList

/-- The Go `error` values the program handles: the result of `fmt.Errorf` (an
error that is only a message) and `*strconv.NumError`, which `strconv.ParseFloat`
returns and `perfdataParseValue` passes on unchanged. -/
inductive GoError
  | errorString (msg : Str)
  | NumError (Func : Str) (Num : Str) (Err : NumErrKind)
deriving DecidableEq, Repr

/-- The standard-library functions the program calls.  `atof64 s` is the
outcome of converting the text `s` to a `float64` (the value, or the kind of
failure); `Quote` is `strconv.Quote`. -/
structure GoLib where
  Float64 : Type
  NaN : Float64
  atof64 : Str → Except NumErrKind Float64
  Quote : Str → Str

/-- The call `strconv.ParseFloat(s, 64)`.  As documented, an error it returns
has concrete type `*NumError` with `Func = "ParseFloat"` and `Num = s`. -/
def GoLib.ParseFloat (L : GoLib) (s : Str) : Except GoError L.Float64 :=
  match L.atof64 s with
  | .ok v => .ok v
  | .error k => .error (.NumError "ParseFloat".toList s k)

/-- The method `Error()` of an error value: the message itself for `fmt.Errorf`;
for `*NumError` it is
`"strconv." + Func + ": parsing " + Quote(Num) + ": " + Err.Error()`. -/
def GoError.Error (L : GoLib) : GoError → Str
  | .errorString msg => msg
  | .NumError fn num err =>
    "strconv.".toList ++ fn ++ ": parsing ".toList ++ L.Quote num ++ ": ".toList ++ err.text

/-- Function `strings.Replace(s, old, new, -1)` for one-character `old` and `new`:
every occurrence is replaced. -/
def stringsReplace (old new : Char) (s : Str) : Str :=
  s.map (fun c => if c = old then new else c)

/-- Function `strings.Split(s, sep)` for a one-character separator: the pieces between
the occurrences of `sep`; one piece more than there are separators. -/
def stringsSplit (sep : Char) : Str → List Str
  | [] => [[]]
  | c :: s =>
    if c = sep then [] :: stringsSplit sep s
    else
      match stringsSplit sep s with
      | f :: fs => (c :: f) :: fs
      | [] => [[c]]

/-! ## Regular expressions -/

/-- The regular expressions the program uses: one character of a class, greedy
repetition of a class (`*`, `+`), greedy option (`?`) and concatenation.
Capture groups are left out: the program only reads whole matches. -/
inductive Regex
  | cls (p : Char → Bool)
  | star (p : Char → Bool)
  | plus (p : Char → Bool)
  | opt (r : Regex)
  | seq (a b : Regex)

/-- Greedy repetition of the class `p` at the start of `s`: the texts left
after the match, the longest match first, the empty match last. -/
def repRun (p : Char → Bool) : Str → List Str
  | [] => [[]]
  | c :: s => if p c then repRun p s ++ [c :: s] else [c :: s]

/-- All the ways `r` matches at the start of `s`, each given by the text left
after the match, in order of preference; the first one is the match of Go's
`regexp` at this position. -/
def Regex.run : Regex → Str → List Str
  | .cls _, [] => []
  | .cls p, c :: s => if p c then [s] else []
  | .star p, s => repRun p s
  | .plus _, [] => []
  | .plus p, c :: s => if p c then repRun p s else []
  | .opt r, s => r.run s ++ [s]
  | .seq a b, s => (a.run s).flatMap (fun t => b.run t)

/-- The preferred match of `r` at the start of `s`, if any: the matched text
and the text after it. -/
def Regex.matchAt (r : Regex) (s : Str) : Option (Str × Str) :=
  match (r.run s).head? with
  | some rest => some (s.take (s.length - rest.length), rest)
  | none => none

/-- Method `re.FindString(s)` for a pattern `^r`: the match can only start at the
beginning of `s`; the result is `""` when there is none. -/
def FindStringAnchored (r : Regex) (s : Str) : Str :=
  match r.matchAt s with
  | some (m, _) => m
  | none => []

/-- The loop of `re.FindAllString(s, -1)`: successive non-overlapping matches,
each the leftmost one from the current position.  `afterMatch` tells that the
previous match ended at the current position: an empty match there is
dropped, and after an empty match the search moves on by one character. -/
def findAllAux (r : Regex) : Nat → Bool → Str → List Str
  | 0, _, _ => []
  | n + 1, afterMatch, s =>
    match r.matchAt s with
    | some (m, rest) =>
      if m = [] then
        match s with
        | [] => if afterMatch then [] else [[]]
        | _ :: t =>
          if afterMatch then findAllAux r n false t else [] :: findAllAux r n false t
      else m :: findAllAux r n true rest
    | none =>
      match s with
      | [] => []
      | _ :: t => findAllAux r n false t

/-- Method `re.FindAllString(s, -1)`.  Every round of the loop either ends it or
moves on by at least one character, so `length s + 1` rounds suffice. -/
def FindAllString (r : Regex) (s : Str) : List Str :=
  findAllAux r (s.length + 1) false s

/-- The single quote character. -/
def quote : Char := Char.ofNat 39

/-- Class `\s` of Go's regexp syntax: `[\t\n\f\r ]`. -/
def isSpace (c : Char) : Bool :=
  c = Char.ofNat 9 || c = Char.ofNat 10 || c = Char.ofNat 12 || c = Char.ofNat 13 || c = ' '

/-- Class `\d` of Go's regexp syntax: `[0-9]`. -/
def isDigit (c : Char) : Bool :=
  decide ('0'.toNat ≤ c.toNat) && decide (c.toNat ≤ '9'.toNat)

/-- Class `[^']`. -/
def notQuote (c : Char) : Bool := !(c = quote)

/-- Class `[^\s]`. -/
def notSpace (c : Char) : Bool := !(isSpace c)

/-- Class `[^=']`. -/
def notEqQuote (c : Char) : Bool := !(c = '=' || c = quote)

/-- Class `[\d\.,]`. -/
def isNumChar (c : Char) : Bool := isDigit c || c = '.' || c = ','

/-- The sub-pattern `'[^']+'` shared by two of the patterns. -/
def quotedRegex : Regex :=
  .seq (.cls (fun c => c = quote)) (.seq (.plus notQuote) (.cls (fun c => c = quote)))

/-- Pattern `(('[^']+')?[^\s]+)`. -/
def perfdataSplitRegex : Regex := .seq (.opt quotedRegex) (.plus notSpace)

/-- Pattern `^(('[^']+')?([^='])*)`, without its anchor `^` (see `FindStringAnchored`). -/
def perfdataLabelRegex : Regex := .seq (.opt quotedRegex) (.star notEqQuote)

/-- Pattern `^([\d\.,]+)`, without its anchor `^` (see `FindStringAnchored`). -/
def perfdataValueRegex : Regex := .plus isNumChar

/-- The text left after a leading quoted segment `'[^']+'` (a quote, one or
more characters other than a quote, a quote), if `s` starts with one. -/
def quotedRest : Str → Option Str
  | c :: d :: u =>
    if c = quote ∧ notQuote d = true then
      match u.dropWhile notQuote with
      | [] => none
      | _ :: rest => some rest
    else none
  | _ => none

/-- The text left after the label: what follows the longest run of characters
other than `=` and quote, read after the leading quoted segment if there is
one (`perfdataLabelRegex` matches up to there, see `label_matchAt`). -/
def labelRest (s : Str) : Str := ((quotedRest s).getD s).dropWhile notEqQuote

/-! ## The program -/

/-- Type `Perfdata`: all fields of a single nagios perfdata string. -/
structure Perfdata (F : Type) where
  Label : Str
  Value : F
  UOM : Str
  Min : F
  Max : F
  Warning : F
  Critical : F
deriving DecidableEq

/-- Function `parseFloat`. -/
def parseFloat (L : GoLib) (val : Str) : Except GoError L.Float64 :=
  L.ParseFloat (stringsReplace ',' '.' val)

/-- The third part of `perfdataParseValue`: label, value and unit from `data[0]`,
once the thresholds are decoded. -/
def parseLabelValue (L : GoLib) (data0 : Str) (pd : Perfdata L.Float64) :
    Except GoError (Perfdata L.Float64) :=
  let Label := FindStringAnchored perfdataLabelRegex data0
  if Label = [] then .error (.errorString "invalid label".toList)
  else if Label.length = data0.length then .error (.errorString "no value found".toList)
  else if data0.getD Label.length ' ' ≠ '=' then .error (.errorString "invalid format".toList)
  else
    let valueWithUnit := data0.drop (Label.length + 1)
    let rawval := FindStringAnchored perfdataValueRegex valueWithUnit
    if rawval = [] then .error (.errorString "missing number".toList)
    else
      match parseFloat L rawval with
      | .error err => .error err
      | .ok v =>
        let UOM := if rawval.length = valueWithUnit.length then [] else valueWithUnit.drop rawval.length
        .ok { pd with Label := Label, Value := v, UOM := UOM }

/-- One optional threshold of `perfdataParseValue`: when `present` (the field
count allows it) and the field is not empty, the field is parsed and `set`
stores the value in the record; otherwise the record is left as it is. -/
def parseThreshold (L : GoLib) (present : Bool) (field : Str)
    (set : Perfdata L.Float64 → L.Float64 → Perfdata L.Float64) (pd : Perfdata L.Float64) :
    Except GoError (Perfdata L.Float64) :=
  if present && field ≠ [] then
    match parseFloat L field with
    | .error err => .error err
    | .ok v => .ok (set pd v)
  else .ok pd

/-- Function `perfdataParseValue`. -/
def perfdataParseValue (L : GoLib) (valueStr : Str) : Except GoError (Perfdata L.Float64) :=
  let pd : Perfdata L.Float64 :=
    { Label := [], Value := L.NaN, UOM := [], Warning := L.NaN, Critical := L.NaN,
      Min := L.NaN, Max := L.NaN }
  let data := stringsSplit ';' valueStr
  let dataLen := data.length
  if dataLen < 1 ∨ dataLen > 5 then .error (.errorString "invalid perfdata string".toList)
  else
    match parseThreshold L (dataLen = 5) (data.getD 4 []) (fun p v => { p with Max := v }) pd with
    | .error err => .error err
    | .ok pd =>
    match parseThreshold L (dataLen ≥ 4) (data.getD 3 []) (fun p v => { p with Min := v }) pd with
    | .error err => .error err
    | .ok pd =>
    match parseThreshold L (dataLen ≥ 3) (data.getD 2 []) (fun p v => { p with Critical := v }) pd with
    | .error err => .error err
    | .ok pd =>
    match parseThreshold L (dataLen ≥ 2) (data.getD 1 []) (fun p v => { p with Warning := v }) pd with
    | .error err => .error err
    | .ok pd => parseLabelValue L (data.getD 0 []) pd

/-- The record `r` with every `,` of its label and of its unit replaced by `.`. -/
def Perfdata.replaceComma {F : Type} (r : Perfdata F) : Perfdata F :=
  { r with Label := stringsReplace ',' '.' r.Label, UOM := stringsReplace ',' '.' r.UOM }

/-- The loop of `ParsePerfdata` over the tokens: each is decoded in turn, and
the first failure ends the call with the wrapped error and no records. -/
def parseValues (L : GoLib) : List Str → Except GoError (List (Perfdata L.Float64))
  | [] => .ok []
  | valueStr :: rest =>
    match perfdataParseValue L valueStr with
    | .error err => .error (.errorString ("could not parse perfdata: ".toList ++ err.Error L))
    | .ok v =>
      match parseValues L rest with
      | .error e => .error e
      | .ok vs => .ok (v :: vs)

/-- Function `ParsePerfdata`: splits a string into a list of `Perfdata` values. -/
def ParsePerfdata (L : GoLib) (perfdata : Str) : Except GoError (List (Perfdata L.Float64)) :=
  let valueStrings := FindAllString perfdataSplitRegex perfdata
  if valueStrings.length = 0 then
    .error (.errorString ("could not split perfdata: ".toList ++ perfdata))
  else parseValues L valueStrings

/-! ## The index and slice expressions with their range checks

A second embedding of `perfdataParseValue` in which every index expression
`x[i]` and slice expression `x[i:]` is evaluated as Go does: out of range it
stops the run with a panic, here the outcome `none`. -/

/-- One optional threshold of `perfdataParseValue` with the index expression
`data[k]` checked.  The operator `&&` evaluates `data[k] != ""` only when
`present` holds; `data[k]` is a panic when `data` has no element `k`. -/
def checkedThreshold (L : GoLib) (present : Bool) (data : List Str) (k : Nat)
    (set : Perfdata L.Float64 → L.Float64 → Perfdata L.Float64) (pd : Perfdata L.Float64) :
    Option (Except GoError (Perfdata L.Float64)) :=
  if present then
    match data[k]? with
    | none => none
    | some field =>
      if field ≠ [] then
        match parseFloat L field with
        | .error err => some (.error err)
        | .ok v => some (.ok (set pd v))
      else some (.ok pd)
  else some (.ok pd)

/-- The third part of `perfdataParseValue` with its index and slice
expressions checked: `data[0]`, `data[0][len(pd.Label)]`,
`data[0][len(pd.Label)+1:]` and `valueWithUnit[len(rawval):]`. -/
def checkedLabelValue (L : GoLib) (data : List Str) (pd : Perfdata L.Float64) :
    Option (Except GoError (Perfdata L.Float64)) :=
  match data[0]? with
  | none => none
  | some data0 =>
    let Label := FindStringAnchored perfdataLabelRegex data0
    if Label = [] then some (.error (.errorString "invalid label".toList))
    else if Label.length = data0.length then some (.error (.errorString "no value found".toList))
    else
      match data0[Label.length]? with
      | none => none
      | some c =>
        if c ≠ '=' then some (.error (.errorString "invalid format".toList))
        else if data0.length < Label.length + 1 then none
        else
          let valueWithUnit := data0.drop (Label.length + 1)
          let rawval := FindStringAnchored perfdataValueRegex valueWithUnit
          if rawval = [] then some (.error (.errorString "missing number".toList))
          else
            match parseFloat L rawval with
            | .error err => some (.error err)
            | .ok v =>
              if rawval.length = valueWithUnit.length then
                some (.ok { pd with Label := Label, Value := v, UOM := [] })
              else if valueWithUnit.length < rawval.length then none
              else
                some (.ok { pd with Label := Label, Value := v,
                                    UOM := valueWithUnit.drop rawval.length })

/-- Function `perfdataParseValue` with every index and slice expression
checked; `none` is a run-time panic. -/
def perfdataParseValueChecked (L : GoLib) (valueStr : Str) :
    Option (Except GoError (Perfdata L.Float64)) :=
  let pd : Perfdata L.Float64 :=
    { Label := [], Value := L.NaN, UOM := [], Warning := L.NaN, Critical := L.NaN,
      Min := L.NaN, Max := L.NaN }
  let data := stringsSplit ';' valueStr
  let dataLen := data.length
  if dataLen < 1 ∨ dataLen > 5 then some (.error (.errorString "invalid perfdata string".toList))
  else
    match checkedThreshold L (dataLen = 5) data 4 (fun p v => { p with Max := v }) pd with
    | none => none
    | some (.error err) => some (.error err)
    | some (.ok pd) =>
    match checkedThreshold L (dataLen ≥ 4) data 3 (fun p v => { p with Min := v }) pd with
    | none => none
    | some (.error err) => some (.error err)
    | some (.ok pd) =>
    match checkedThreshold L (dataLen ≥ 3) data 2 (fun p v => { p with Critical := v }) pd with
    | none => none
    | some (.error err) => some (.error err)
    | some (.ok pd) =>
    match checkedThreshold L (dataLen ≥ 2) data 1 (fun p v => { p with Warning := v }) pd with
    | none => none
    | some (.error err) => some (.error err)
    | some (.ok pd) => checkedLabelValue L data pd

/-! ## Tokens and the white space between them -/

/-- The text `t1 ++ g1 ++ t2 ++ g2 ++ ... ++ tn ++ gn` made of the tokens
`t1 .. tn` and the gaps `g1 .. gn` that follow them. -/
def weave : List Str → List Str → Str
  | t :: ts, g :: gs => t ++ g ++ weave ts gs
  | _, _ => []

/-! ## A concrete library

`refLib` follows the documented behaviour of `strconv.ParseFloat` for decimal
literals (optional sign, digits with at most one `.`, optional exponent) and
for the names `inf`, `infinity` and `nan`; the hexadecimal literals and the
`_` digit separators that Go 1.13 added are not part of it.  A finite value is
kept as the exact decimal number the text denotes: the rounding to the nearest
binary64 is not modelled, only the range check is.  It serves to run the
program on concrete inputs; the general theorems hold for every `GoLib`. -/

/-- Values of `float64` in `refLib`: NaN, an infinity, or the finite decimal
`±mant * 10 ^ exp10`, with `mant` not divisible by 10 unless it is 0. -/
inductive RefFloat
  | nan
  | inf (neg : Bool)
  | num (neg : Bool) (mant : Nat) (exp10 : Int)
deriving DecidableEq, Repr

/-- Removes the trailing zeros of a decimal mantissa, raising the exponent. -/
def stripZeros : Nat → Nat → Int → Nat × Int
  | 0, m, e => (m, e)
  | fuel + 1, m, e => if m % 10 = 0 then stripZeros fuel (m / 10) (e + 1) else (m, e)

/-- The finite value `±m * 10 ^ e`. -/
def RefFloat.ofDecimal (neg : Bool) (m : Nat) (e : Int) : RefFloat :=
  if m = 0 then .num neg 0 0
  else
    let r := stripZeros m m e
    .num neg r.1 r.2

/-- Whether `m * 10 ^ e` is at least `2^1024 - 2^970`, that is more than half
a unit in the last place beyond the largest `float64`. -/
def outOfRange (m : Nat) (e : Int) : Bool :=
  if 0 ≤ e then decide (1 <<< 1024 - 1 <<< 970 ≤ m * 10 ^ e.toNat)
  else decide ((1 <<< 1024 - 1 <<< 970) * 10 ^ (-e).toNat ≤ m)

/-- Value of a decimal digit. -/
def digitVal (c : Char) : Nat := c.toNat - '0'.toNat

/-- The digit loop of the library's `readFloat`: digits with at most one `.`.
Gives whether a digit was seen, the digits read as one number, how many of
them follow the `.`, and the text left; `none` at a second `.`. -/
def readDigits : Str → Bool → Bool → Nat → Nat → Option (Bool × Nat × Nat × Str)
  | [], _, sawdigits, m, frac => some (sawdigits, m, frac, [])
  | c :: s, sawdot, sawdigits, m, frac =>
    if c = '.' then
      if sawdot then none else readDigits s true sawdigits m frac
    else if isDigit c then
      readDigits s sawdot true (m * 10 + digitVal c) (if sawdot then frac + 1 else frac)
    else some (sawdigits, m, frac, c :: s)

/-- The exponent of a decimal literal, after its `e`: an optional sign and at
least one digit, up to the end of the text. -/
def readExponent (s : Str) : Option Int :=
  let neg := s.head? = some '-'
  let ds := if s.head? = some '+' ∨ s.head? = some '-' then s.drop 1 else s
  if ds ≠ [] ∧ ds.all isDigit = true then
    let e : Nat := ds.foldl (fun a c => a * 10 + digitVal c) 0
    some (if neg then -(e : Int) else (e : Int))
  else none

/-- The special values: `nan`, and `inf` or `infinity` with an optional sign,
in any mix of upper and lower case. -/
def special (s : Str) : Option RefFloat :=
  let t := s.map Char.toLower
  if t = "nan".toList then some .nan
  else if t = "inf".toList ∨ t = "+inf".toList ∨ t = "infinity".toList ∨ t = "+infinity".toList
  then some (.inf false)
  else if t = "-inf".toList ∨ t = "-infinity".toList then some (.inf true)
  else none

/-- Conversion of a text to a `float64` in `refLib`. -/
def refAtof64 (s : Str) : Except NumErrKind RefFloat :=
  match special s with
  | some v => .ok v
  | none =>
    let neg := s.head? = some '-'
    let t := if s.head? = some '+' ∨ s.head? = some '-' then s.drop 1 else s
    match readDigits t false false 0 0 with
    | none => .error .syntaxErr
    | some (sawdigits, m, frac, rest) =>
      if sawdigits = false then .error .syntaxErr
      else
        let ex : Option Int :=
          match rest with
          | [] => some 0
          | c :: r => if c = 'e' ∨ c = 'E' then readExponent r else none
        match ex with
        | none => .error .syntaxErr
        | some e =>
          if outOfRange m (e - frac) then .error .rangeErr
          else .ok (RefFloat.ofDecimal neg m (e - frac))

/-- Hexadecimal digit, lower case. -/
def hexDigit (n : Nat) : Char := if n < 10 then Char.ofNat (48 + n) else Char.ofNat (87 + n)

/-- How `strconv.Quote` writes one character: `"` and `\` behind a backslash,
the control characters as their escape sequences, the rest as it is (of the
characters beyond ASCII the library escapes the non-printable ones, which is
not modelled). -/
def refQuoteChar (c : Char) : Str :=
  let bs := Char.ofNat 92
  if c = Char.ofNat 34 ∨ c = bs then [bs, c]
  else if c = Char.ofNat 7 then [bs, 'a']
  else if c = Char.ofNat 8 then [bs, 'b']
  else if c = Char.ofNat 12 then [bs, 'f']
  else if c = Char.ofNat 10 then [bs, 'n']
  else if c = Char.ofNat 13 then [bs, 'r']
  else if c = Char.ofNat 9 then [bs, 't']
  else if c = Char.ofNat 11 then [bs, 'v']
  else if c.toNat < 32 ∨ c.toNat = 127 then [bs, 'x', hexDigit (c.toNat / 16), hexDigit (c.toNat % 16)]
  else [c]

/-- Function `strconv.Quote` in `refLib`. -/
def refQuote (s : Str) : Str :=
  Char.ofNat 34 :: (s.flatMap refQuoteChar ++ [Char.ofNat 34])

/-- The concrete library. -/
def refLib : GoLib where
  Float64 := RefFloat
  NaN := .nan
  atof64 := refAtof64
  Quote := refQuote

instance : DecidableEq refLib.Float64 := inferInstanceAs (DecidableEq RefFloat)

instance : Repr refLib.Float64 := inferInstanceAs (Repr RefFloat)


/-! ## The loop over the tokens -/

theorem parseValues_ok_iff (L : GoLib) (ts : List Str) (rs : List (Perfdata L.Float64)) :
    parseValues L ts = .ok rs ↔ List.Forall₂ (fun t r => perfdataParseValue L t = .ok r) ts rs := by
  induction ts generalizing rs with
  | nil =>
    cases rs with
    | nil => simp [parseValues]
    | cons r rs => simp [parseValues]
  | cons t ts ih =>
    rw [List.forall₂_cons_left_iff]
    cases hp : perfdataParseValue L t with
    | error e => simp [parseValues, hp]
    | ok v =>
      cases hrest : parseValues L ts with
      | error e =>
        simp only [parseValues, hp, hrest]
        constructor
        · intro h; cases h
        · rintro ⟨b, u, _, h2, _⟩
          rw [← ih, hrest] at h2
          cases h2
      | ok vs =>
        simp only [parseValues, hp, hrest]
        constructor
        · intro h
          cases h
          exact ⟨v, vs, rfl, (ih vs).1 hrest, rfl⟩
        · rintro ⟨b, u, h1, h2, h3⟩
          rw [← ih, hrest] at h2
          cases h1
          cases h2
          rw [h3]

theorem parseValues_first_error (L : GoLib) (pre : List Str) (t : Str) (post : List Str)
    (err : GoError) (hpre : ∀ p ∈ pre, ∃ r, perfdataParseValue L p = .ok r)
    (ht : perfdataParseValue L t = .error err) :
    parseValues L (pre ++ t :: post) =
      .error (.errorString ("could not parse perfdata: ".toList ++ err.Error L)) := by
  induction pre with
  | nil => simp [parseValues, ht]
  | cons p pre ih =>
    obtain ⟨r, hr⟩ := hpre p (List.mem_cons_self _ _)
    have := ih (fun q hq => hpre q (List.mem_cons_of_mem _ hq))
    simp [parseValues, hr, this]


/-! ## The matcher -/

theorem repRun_ne_nil (p : Char → Bool) (s : Str) : repRun p s ≠ [] := by
  cases s with
  | nil => simp [repRun]
  | cons c s =>
    by_cases h : p c = true <;> simp [repRun, h]

theorem repRun_head (p : Char → Bool) (s : Str) :
    (repRun p s).head? = some (s.dropWhile p) := by
  induction s with
  | nil => simp [repRun]
  | cons c s ih =>
    by_cases h : p c = true
    · simp [repRun, h, List.head?_append, ih]
    · simp [repRun, h]

theorem repRun_mem (p : Char → Bool) (s rest : Str) (h : rest ∈ repRun p s) :
    ∃ m, s = m ++ rest ∧ ∀ c ∈ m, p c = true := by
  induction s with
  | nil =>
    simp [repRun] at h
    exact ⟨[], by simp [h]⟩
  | cons c s ih =>
    by_cases hc : p c = true
    · simp only [repRun, hc, if_true, List.mem_append, List.mem_singleton] at h
      rcases h with h | h
      · obtain ⟨m, hm, hall⟩ := ih h
        refine ⟨c :: m, by simp [hm], ?_⟩
        intro d hd
        rcases List.mem_cons.1 hd with rfl | hd
        · exact hc
        · exact hall d hd
      · exact ⟨[], by simp [h]⟩
    · simp [repRun, hc] at h
      exact ⟨[], by simp [h]⟩

theorem run_suffix (r : Regex) (s rest : Str) (h : rest ∈ r.run s) : ∃ m, s = m ++ rest := by
  induction r generalizing s rest with
  | cls p =>
    cases s with
    | nil => simp [Regex.run] at h
    | cons c s =>
      by_cases hc : p c = true
      · simp [Regex.run, hc] at h
        exact ⟨[c], by simp [h]⟩
      · simp [Regex.run, hc] at h
  | star p =>
    obtain ⟨m, hm, _⟩ := repRun_mem p s rest h
    exact ⟨m, hm⟩
  | plus p =>
    cases s with
    | nil => simp [Regex.run] at h
    | cons c s =>
      by_cases hc : p c = true
      · simp only [Regex.run, hc, if_true] at h
        obtain ⟨m, hm, _⟩ := repRun_mem p s rest h
        exact ⟨c :: m, by simp [hm]⟩
      · simp [Regex.run, hc] at h
  | opt r ih =>
    simp only [Regex.run, List.mem_append, List.mem_singleton] at h
    rcases h with h | h
    · exact ih s rest h
    · exact ⟨[], by simp [h]⟩
  | seq a b iha ihb =>
    simp only [Regex.run, List.mem_flatMap] at h
    obtain ⟨t, ht, hrest⟩ := h
    obtain ⟨m1, h1⟩ := iha s t ht
    obtain ⟨m2, h2⟩ := ihb t rest hrest
    exact ⟨m1 ++ m2, by simp [h1, h2]⟩

theorem matchAt_of_head (r : Regex) (s m rest : Str) (hh : (r.run s).head? = some rest)
    (hs : s = m ++ rest) : r.matchAt s = some (m, rest) := by
  simp only [Regex.matchAt, hh]
  subst hs
  simp

theorem matchAt_none (r : Regex) (s : Str) (hh : r.run s = []) : r.matchAt s = none := by
  simp [Regex.matchAt, hh]

theorem matchAt_split (r : Regex) (s m rest : Str) (h : r.matchAt s = some (m, rest)) :
    s = m ++ rest ∧ (r.run s).head? = some rest := by
  unfold Regex.matchAt at h
  cases hh : (r.run s).head? with
  | none => simp [hh] at h
  | some x =>
    simp only [hh, Option.some.injEq, Prod.mk.injEq] at h
    obtain ⟨h1, h2⟩ := h
    subst h2
    obtain ⟨m', hm'⟩ := run_suffix r s x (List.mem_of_mem_head? hh)
    subst hm'
    simp at h1
    exact ⟨by rw [h1], rfl⟩

theorem repRun_flatMap_cls (p q : Char → Bool) (hpq : ∀ c, p c = true → q c = false) (s : Str) :
    (repRun p s).flatMap (fun t => (Regex.cls q).run t) = (Regex.cls q).run (s.dropWhile p) := by
  induction s with
  | nil => simp [repRun, Regex.run]
  | cons c s ih =>
    by_cases hc : p c = true
    · simp [repRun, hc, ih, Regex.run, hpq c hc]
    · simp [repRun, hc]

theorem dropWhile_head_false (p : Char → Bool) (s : Str) (e : Char) (rest : Str)
    (h : s.dropWhile p = e :: rest) : p e = false := by
  induction s with
  | nil => simp at h
  | cons c s ih =>
    by_cases hc : p c = true
    · simp [List.dropWhile, hc] at h
      exact ih h
    · simp [List.dropWhile, hc] at h
      obtain ⟨h1, _⟩ := h
      subst h1
      simpa using hc

theorem quotedRegex_run (s : Str) : quotedRegex.run s = (quotedRest s).toList := by
  have hq : ∀ c, notQuote c = true → (fun c => decide (c = quote)) c = false := by
    intro c hc
    simpa [notQuote] using hc
  cases s with
  | nil => simp [quotedRegex, Regex.run, quotedRest]
  | cons c t =>
    by_cases hc : c = quote
    · cases t with
      | nil => simp [quotedRegex, Regex.run, quotedRest, hc]
      | cons d u =>
        by_cases hd : notQuote d = true
        · simp only [quotedRegex, Regex.run, hc, decide_True, if_true, List.flatMap_cons,
            List.flatMap_nil, List.append_nil, hd, quotedRest, and_self]
          rw [repRun_flatMap_cls notQuote _ hq]
          cases hdw : u.dropWhile notQuote with
          | nil => simp [Regex.run]
          | cons e rest =>
            have := dropWhile_head_false notQuote u e rest hdw
            simp [notQuote] at this
            simp [Regex.run, this]
        · simp [quotedRegex, Regex.run, quotedRest, hc, hd]
    · cases t with
      | nil => simp [quotedRegex, Regex.run, quotedRest, hc]
      | cons d u => simp [quotedRegex, Regex.run, quotedRest, hc]


theorem plus_run_head (p : Char → Bool) (s : Str) :
    ((Regex.plus p).run s).head? = if s.takeWhile p = [] then none else some (s.dropWhile p) := by
  cases s with
  | nil => simp [Regex.run]
  | cons c t =>
    by_cases hc : p c = true
    · simp [Regex.run, hc, repRun_head, List.takeWhile, List.dropWhile]
    · simp [Regex.run, hc, List.takeWhile]

theorem plus_matchAt (p : Char → Bool) (s : Str) :
    (Regex.plus p).matchAt s =
      if s.takeWhile p = [] then none else some (s.takeWhile p, s.dropWhile p) := by
  by_cases h : s.takeWhile p = []
  · have := plus_run_head p s
    simp only [h, if_true] at this
    simp [Regex.matchAt, this, h]
  · have := plus_run_head p s
    simp only [h, if_false] at this
    simp only [h, if_false]
    exact matchAt_of_head _ _ _ _ this (List.takeWhile_append_dropWhile p s).symm

theorem run_seq (a b : Regex) (s : Str) :
    (Regex.seq a b).run s = (a.run s).flatMap (fun t => b.run t) := by
  cases s <;> rfl

theorem run_opt (r : Regex) (s : Str) : (Regex.opt r).run s = r.run s ++ [s] := by
  cases s <;> rfl

theorem run_star (p : Char → Bool) (s : Str) : (Regex.star p).run s = repRun p s := by
  cases s <;> rfl

theorem label_run_head (s : Str) : (perfdataLabelRegex.run s).head? = some (labelRest s) := by
  rw [perfdataLabelRegex, run_seq, run_opt, quotedRegex_run, labelRest]
  cases quotedRest s with
  | none => simp [run_star, repRun_head]
  | some r =>
    simp only [Option.toList, List.singleton_append, List.flatMap_cons, List.head?_append,
      run_star, repRun_head, Option.getD_some]
    rfl

theorem label_matchAt (s : Str) :
    ∃ m, perfdataLabelRegex.matchAt s = some (m, labelRest s) ∧ s = m ++ labelRest s := by
  have hh := label_run_head s
  obtain ⟨m, hm⟩ := run_suffix _ s _ (List.mem_of_mem_head? hh)
  exact ⟨m, matchAt_of_head _ _ _ _ hh hm, hm⟩

theorem split_run_head (s : Str) :
    (perfdataSplitRegex.run s).head? =
      match quotedRest s with
      | some r =>
        if r.takeWhile notSpace = [] then ((Regex.plus notSpace).run s).head?
        else some (r.dropWhile notSpace)
      | none => ((Regex.plus notSpace).run s).head? := by
  rw [perfdataSplitRegex, run_seq, run_opt, quotedRegex_run]
  cases quotedRest s with
  | none => simp
  | some r =>
    simp only [Option.toList, List.singleton_append, List.flatMap_cons, List.flatMap_nil,
      List.append_nil, List.head?_append, plus_run_head]
    by_cases h : r.takeWhile notSpace = []
    · simp only [h, if_true]
      rfl
    · simp only [h, if_false]
      rfl


/-! ## Decoding one entry -/

theorem parseFloat_error (L : GoLib) (f : Str) (err : GoError) (h : parseFloat L f = .error err) :
    ∃ k, L.atof64 (stringsReplace ',' '.' f) = .error k ∧
      err = .NumError "ParseFloat".toList (stringsReplace ',' '.' f) k := by
  unfold parseFloat GoLib.ParseFloat at h
  cases hk : L.atof64 (stringsReplace ',' '.' f) with
  | ok v => simp [hk] at h
  | error k =>
    simp only [hk, Except.error.injEq] at h
    exact ⟨k, rfl, h.symm⟩

theorem parseThreshold_ok (L : GoLib) (b : Bool) (f : Str)
    (set : Perfdata L.Float64 → L.Float64 → Perfdata L.Float64) (pd pd' : Perfdata L.Float64)
    (h : parseThreshold L b f set pd = .ok pd') :
    (b = true ∧ f ≠ [] ∧ ∃ v, parseFloat L f = .ok v ∧ pd' = set pd v) ∨
      (¬(b = true ∧ f ≠ []) ∧ pd' = pd) := by
  unfold parseThreshold at h
  by_cases hc : b = true ∧ f ≠ []
  · have hc' : (b && decide (f ≠ [])) = true := by simp [hc.1, hc.2]
    rw [if_pos hc'] at h
    cases hv : parseFloat L f with
    | error err => simp [hv] at h
    | ok v =>
      simp only [hv, Except.ok.injEq] at h
      exact Or.inl ⟨hc.1, hc.2, v, rfl, h.symm⟩
  · have hc' : ¬((b && decide (f ≠ [])) = true) := by
      simpa using hc
    rw [if_neg hc'] at h
    simp only [Except.ok.injEq] at h
    exact Or.inr ⟨hc, h.symm⟩

theorem parseThreshold_error (L : GoLib) (b : Bool) (f : Str)
    (set : Perfdata L.Float64 → L.Float64 → Perfdata L.Float64) (pd : Perfdata L.Float64)
    (err : GoError) (h : parseThreshold L b f set pd = .error err) :
    b = true ∧ f ≠ [] ∧ parseFloat L f = .error err := by
  unfold parseThreshold at h
  by_cases hc : (b && decide (f ≠ [])) = true
  · rw [if_pos hc] at h
    cases hv : parseFloat L f with
    | error e =>
      simp only [hv, Except.error.injEq] at h
      simp only [Bool.and_eq_true, decide_eq_true_eq] at hc
      exact ⟨hc.1, hc.2, by rw [h]⟩
    | ok v => simp [hv] at h
  · rw [if_neg hc] at h
    cases h

theorem FindStringAnchored_label (d : Str) :
    d = FindStringAnchored perfdataLabelRegex d ++ labelRest d := by
  obtain ⟨m, hm, hd⟩ := label_matchAt d
  simp only [FindStringAnchored, hm]
  exact hd

theorem FindStringAnchored_value (s : Str) :
    FindStringAnchored perfdataValueRegex s = s.takeWhile isNumChar := by
  simp only [FindStringAnchored, perfdataValueRegex, plus_matchAt]
  by_cases h : s.takeWhile isNumChar = [] <;> simp [h]

theorem parseLabelValue_ok (L : GoLib) (d : Str) (pd r : Perfdata L.Float64)
    (h : parseLabelValue L d pd = .ok r) :
    r.Min = pd.Min ∧ r.Max = pd.Max ∧ r.Warning = pd.Warning ∧ r.Critical = pd.Critical ∧
      r.Label = FindStringAnchored perfdataLabelRegex d ∧ r.Label ≠ [] ∧
      r.Label.length ≠ d.length ∧ d.getD r.Label.length ' ' = '=' ∧
      FindStringAnchored perfdataValueRegex (d.drop (r.Label.length + 1)) ≠ [] ∧
      parseFloat L (FindStringAnchored perfdataValueRegex (d.drop (r.Label.length + 1)))
        = .ok r.Value ∧
      r.UOM =
        if (FindStringAnchored perfdataValueRegex (d.drop (r.Label.length + 1))).length
            = (d.drop (r.Label.length + 1)).length then []
        else (d.drop (r.Label.length + 1)).drop
          (FindStringAnchored perfdataValueRegex (d.drop (r.Label.length + 1))).length := by
  unfold parseLabelValue at h
  simp only at h
  by_cases h1 : FindStringAnchored perfdataLabelRegex d = []
  · rw [if_pos h1] at h; cases h
  rw [if_neg h1] at h
  by_cases h2 : (FindStringAnchored perfdataLabelRegex d).length = d.length
  · rw [if_pos h2] at h; cases h
  rw [if_neg h2] at h
  by_cases h3 : d.getD (FindStringAnchored perfdataLabelRegex d).length ' ' ≠ '='
  · rw [if_pos h3] at h; cases h
  rw [if_neg h3] at h
  by_cases h4 : FindStringAnchored perfdataValueRegex
      (d.drop ((FindStringAnchored perfdataLabelRegex d).length + 1)) = []
  · rw [if_pos h4] at h; cases h
  rw [if_neg h4] at h
  cases hv : parseFloat L (FindStringAnchored perfdataValueRegex
      (d.drop ((FindStringAnchored perfdataLabelRegex d).length + 1))) with
  | error err => simp [hv] at h
  | ok v =>
    simp only [hv, Except.ok.injEq] at h
    subst h
    exact ⟨rfl, rfl, rfl, rfl, rfl, h1, h2, not_not.1 h3, h4, hv, rfl⟩


theorem perfdataParseValue_ok_chain (L : GoLib) (e : Str) (r : Perfdata L.Float64)
    (h : perfdataParseValue L e = .ok r) :
    (stringsSplit ';' e).length ≤ 5 ∧ ∃ p4 p3 p2 p1 : Perfdata L.Float64,
      parseThreshold L (decide ((stringsSplit ';' e).length = 5)) ((stringsSplit ';' e).getD 4 [])
        (fun p v => { p with Max := v })
        { Label := [], Value := L.NaN, UOM := [], Warning := L.NaN, Critical := L.NaN,
          Min := L.NaN, Max := L.NaN } = .ok p4 ∧
      parseThreshold L (decide ((stringsSplit ';' e).length ≥ 4)) ((stringsSplit ';' e).getD 3 [])
        (fun p v => { p with Min := v }) p4 = .ok p3 ∧
      parseThreshold L (decide ((stringsSplit ';' e).length ≥ 3)) ((stringsSplit ';' e).getD 2 [])
        (fun p v => { p with Critical := v }) p3 = .ok p2 ∧
      parseThreshold L (decide ((stringsSplit ';' e).length ≥ 2)) ((stringsSplit ';' e).getD 1 [])
        (fun p v => { p with Warning := v }) p2 = .ok p1 ∧
      parseLabelValue L ((stringsSplit ';' e).getD 0 []) p1 = .ok r := by
  unfold perfdataParseValue at h
  simp only at h
  split at h
  · cases h
  · rename_i hlen
    refine ⟨by omega, ?_⟩
    split at h
    · cases h
    · rename_i p4 h4
      split at h
      · cases h
      · rename_i p3 h3
        split at h
        · cases h
        · rename_i p2 h2
          split at h
          · cases h
          · rename_i p1 h1
            exact ⟨p4, p3, p2, p1, h4, h3, h2, h1, h⟩


theorem parseThreshold_keeps (L : GoLib) (b : Bool) (f : Str)
    (set : Perfdata L.Float64 → L.Float64 → Perfdata L.Float64) (pd pd' : Perfdata L.Float64)
    (get : Perfdata L.Float64 → L.Float64) (h : parseThreshold L b f set pd = .ok pd')
    (hget : ∀ p v, get (set p v) = get p) : get pd' = get pd := by
  rcases parseThreshold_ok L b f set pd pd' h with ⟨_, _, v, _, rfl⟩ | ⟨_, rfl⟩
  · exact hget pd v
  · rfl

theorem parseThreshold_sets (L : GoLib) (b : Bool) (f : Str)
    (set : Perfdata L.Float64 → L.Float64 → Perfdata L.Float64) (pd pd' : Perfdata L.Float64)
    (get : Perfdata L.Float64 → L.Float64) (h : parseThreshold L b f set pd = .ok pd')
    (hget : ∀ p v, get (set p v) = v) :
    (b = true ∧ f ≠ [] → parseFloat L f = .ok (get pd')) ∧
      (¬(b = true ∧ f ≠ []) → get pd' = get pd) := by
  rcases parseThreshold_ok L b f set pd pd' h with ⟨hb, hf, v, hv, rfl⟩ | ⟨hn, rfl⟩
  · exact ⟨fun _ => by rw [hget]; exact hv, fun hc => absurd ⟨hb, hf⟩ hc⟩
  · exact ⟨fun hc => absurd hc hn, fun _ => rfl⟩

theorem perfdataParseValue_ok_fields (L : GoLib) (e : Str) (r : Perfdata L.Float64)
    (h : perfdataParseValue L e = .ok r) :
    (stringsSplit ';' e).length ≤ 5 ∧
    (((stringsSplit ';' e).length = 5 ∧ (stringsSplit ';' e).getD 4 [] ≠ [] →
        parseFloat L ((stringsSplit ';' e).getD 4 []) = .ok r.Max) ∧
      (¬((stringsSplit ';' e).length = 5 ∧ (stringsSplit ';' e).getD 4 [] ≠ []) →
        r.Max = L.NaN)) ∧
    (((stringsSplit ';' e).length ≥ 4 ∧ (stringsSplit ';' e).getD 3 [] ≠ [] →
        parseFloat L ((stringsSplit ';' e).getD 3 []) = .ok r.Min) ∧
      (¬((stringsSplit ';' e).length ≥ 4 ∧ (stringsSplit ';' e).getD 3 [] ≠ []) →
        r.Min = L.NaN)) ∧
    (((stringsSplit ';' e).length ≥ 3 ∧ (stringsSplit ';' e).getD 2 [] ≠ [] →
        parseFloat L ((stringsSplit ';' e).getD 2 []) = .ok r.Critical) ∧
      (¬((stringsSplit ';' e).length ≥ 3 ∧ (stringsSplit ';' e).getD 2 [] ≠ []) →
        r.Critical = L.NaN)) ∧
    (((stringsSplit ';' e).length ≥ 2 ∧ (stringsSplit ';' e).getD 1 [] ≠ [] →
        parseFloat L ((stringsSplit ';' e).getD 1 []) = .ok r.Warning) ∧
      (¬((stringsSplit ';' e).length ≥ 2 ∧ (stringsSplit ';' e).getD 1 [] ≠ []) →
        r.Warning = L.NaN)) ∧
    ∃ pd, parseLabelValue L ((stringsSplit ';' e).getD 0 []) pd = .ok r := by
  obtain ⟨hlen, p4, p3, p2, p1, h4, h3, h2, h1, h0⟩ := perfdataParseValue_ok_chain L e r h
  obtain ⟨rMin, rMax, rWarn, rCrit, -⟩ := parseLabelValue_ok L _ _ _ h0
  refine ⟨hlen, ?_, ?_, ?_, ?_, ⟨p1, h0⟩⟩
  · have s4 := parseThreshold_sets L _ _ _ _ _ (fun p => p.Max) h4 (fun _ _ => rfl)
    have s3 := parseThreshold_keeps L _ _ _ _ _ (fun p => p.Max) h3 (fun _ _ => rfl)
    have s2 := parseThreshold_keeps L _ _ _ _ _ (fun p => p.Max) h2 (fun _ _ => rfl)
    have s1 := parseThreshold_keeps L _ _ _ _ _ (fun p => p.Max) h1 (fun _ _ => rfl)
    simp only [decide_eq_true_eq] at s4 s3 s2 s1
    rw [rMax, s1, s2, s3]
    exact s4
  · have s3 := parseThreshold_sets L _ _ _ _ _ (fun p => p.Min) h3 (fun _ _ => rfl)
    have s4 := parseThreshold_keeps L _ _ _ _ _ (fun p => p.Min) h4 (fun _ _ => rfl)
    have s2 := parseThreshold_keeps L _ _ _ _ _ (fun p => p.Min) h2 (fun _ _ => rfl)
    have s1 := parseThreshold_keeps L _ _ _ _ _ (fun p => p.Min) h1 (fun _ _ => rfl)
    simp only [decide_eq_true_eq] at s4 s3 s2 s1
    rw [rMin, s1, s2]
    rw [s4] at s3
    exact s3
  · have s2 := parseThreshold_sets L _ _ _ _ _ (fun p => p.Critical) h2 (fun _ _ => rfl)
    have s4 := parseThreshold_keeps L _ _ _ _ _ (fun p => p.Critical) h4 (fun _ _ => rfl)
    have s3 := parseThreshold_keeps L _ _ _ _ _ (fun p => p.Critical) h3 (fun _ _ => rfl)
    have s1 := parseThreshold_keeps L _ _ _ _ _ (fun p => p.Critical) h1 (fun _ _ => rfl)
    simp only [decide_eq_true_eq] at s4 s3 s2 s1
    rw [rCrit, s1]
    rw [s3, s4] at s2
    exact s2
  · have s1 := parseThreshold_sets L _ _ _ _ _ (fun p => p.Warning) h1 (fun _ _ => rfl)
    have s4 := parseThreshold_keeps L _ _ _ _ _ (fun p => p.Warning) h4 (fun _ _ => rfl)
    have s3 := parseThreshold_keeps L _ _ _ _ _ (fun p => p.Warning) h3 (fun _ _ => rfl)
    have s2 := parseThreshold_keeps L _ _ _ _ _ (fun p => p.Warning) h2 (fun _ _ => rfl)
    simp only [decide_eq_true_eq] at s4 s3 s2 s1
    rw [rWarn]
    rw [s2, s3, s4] at s1
    exact s1


theorem stringsSplit_length (sep : Char) (s : Str) :
    (stringsSplit sep s).length = s.count sep + 1 := by
  induction s with
  | nil => simp [stringsSplit]
  | cons c s ih =>
    by_cases hc : c = sep
    · subst hc
      simp [stringsSplit, ih]
    · have hc' : ¬ (c == sep) = true := by simpa using hc
      cases hs : stringsSplit sep s with
      | nil => simp [hs] at ih
      | cons f fs =>
        rw [hs] at ih
        simp only [stringsSplit, hc, if_false, hs, List.length_cons]
        rw [List.count_cons, if_neg hc']
        simpa using ih

theorem parseLabelValue_error (L : GoLib) (d : Str) (pd : Perfdata L.Float64) (err : GoError)
    (h : parseLabelValue L d pd = .error err) :
    err = .errorString "invalid label".toList ∨ err = .errorString "no value found".toList ∨
      err = .errorString "invalid format".toList ∨ err = .errorString "missing number".toList ∨
      ∃ f, parseFloat L f = .error err := by
  unfold parseLabelValue at h
  simp only at h
  by_cases h1 : FindStringAnchored perfdataLabelRegex d = []
  · rw [if_pos h1] at h; cases h; simp
  rw [if_neg h1] at h
  by_cases h2 : (FindStringAnchored perfdataLabelRegex d).length = d.length
  · rw [if_pos h2] at h; cases h; simp
  rw [if_neg h2] at h
  by_cases h3 : d.getD (FindStringAnchored perfdataLabelRegex d).length ' ' ≠ '='
  · rw [if_pos h3] at h; cases h; simp
  rw [if_neg h3] at h
  by_cases h4 : FindStringAnchored perfdataValueRegex
      (d.drop ((FindStringAnchored perfdataLabelRegex d).length + 1)) = []
  · rw [if_pos h4] at h; cases h; simp
  rw [if_neg h4] at h
  cases hv : parseFloat L (FindStringAnchored perfdataValueRegex
      (d.drop ((FindStringAnchored perfdataLabelRegex d).length + 1))) with
  | error e =>
    simp only [hv, Except.error.injEq] at h
    subst h
    exact Or.inr (Or.inr (Or.inr (Or.inr ⟨_, hv⟩)))
  | ok v => simp [hv] at h

theorem perfdataParseValue_error_cases (L : GoLib) (e : Str) (err : GoError)
    (h : perfdataParseValue L e = .error err) :
    (5 < (stringsSplit ';' e).length ∧ err = .errorString "invalid perfdata string".toList) ∨
    ((stringsSplit ';' e).length ≤ 5 ∧
      (err = .errorString "invalid label".toList ∨ err = .errorString "no value found".toList ∨
        err = .errorString "invalid format".toList ∨ err = .errorString "missing number".toList ∨
        ∃ f, parseFloat L f = .error err)) := by
  have hlen := stringsSplit_length ';' e
  unfold perfdataParseValue at h
  simp only at h
  split at h
  · rename_i hc
    simp only [Except.error.injEq] at h
    exact Or.inl ⟨by omega, h.symm⟩
  · rename_i hc
    refine Or.inr ⟨by omega, ?_⟩
    have numErr : ∀ b f set pd, parseThreshold L b f set pd = .error err →
        ∃ f, parseFloat L f = .error err :=
      fun b f set pd hh => ⟨f, (parseThreshold_error L b f set pd err hh).2.2⟩
    split at h
    · rename_i e4 h4
      cases h
      exact Or.inr (Or.inr (Or.inr (Or.inr (numErr _ _ _ _ h4))))
    · split at h
      · rename_i e3 h3
        cases h
        exact Or.inr (Or.inr (Or.inr (Or.inr (numErr _ _ _ _ h3))))
      · split at h
        · rename_i e2 h2
          cases h
          exact Or.inr (Or.inr (Or.inr (Or.inr (numErr _ _ _ _ h2))))
        · split at h
          · rename_i e1 h1
            cases h
            exact Or.inr (Or.inr (Or.inr (Or.inr (numErr _ _ _ _ h1))))
          · exact parseLabelValue_error L _ _ err h

theorem perfdataParseValue_too_many (L : GoLib) (e : Str) (h : 5 < (stringsSplit ';' e).length) :
    perfdataParseValue L e = .error (.errorString "invalid perfdata string".toList) := by
  unfold perfdataParseValue
  simp only
  rw [if_pos (Or.inr h)]

theorem forall₂_left_exists {α β : Type} {R : α → β → Prop} (ts : List α) (rs : List β)
    (h : List.Forall₂ R ts rs) : ∀ t ∈ ts, ∃ r, R t r := by
  induction h with
  | nil => simp
  | cons h1 _ ih =>
    intro t ht
    rcases List.mem_cons.1 ht with rfl | ht
    · exact ⟨_, h1⟩
    · exact ih t ht

/-! ## The top-level operation, the thresholds and the first field -/

/-- C1: `ParsePerfdata s` succeeds exactly when the tokenizer yields at least
one token and `perfdataParseValue` succeeds on every token; the records
returned are then as many as the tokens (so at least one), and the i-th record
is the decoding of the i-th token. -/
theorem ParsePerfdata_ok_iff_tokens (L : GoLib) (s : Str) :
    ((∃ rs, ParsePerfdata L s = .ok rs) ↔
      (FindAllString perfdataSplitRegex s ≠ [] ∧
        ∀ t ∈ FindAllString perfdataSplitRegex s, ∃ r, perfdataParseValue L t = .ok r)) ∧
    (∀ rs, ParsePerfdata L s = .ok rs →
      rs ≠ [] ∧ rs.length = (FindAllString perfdataSplitRegex s).length ∧
      ∀ (i : Nat) t r, (FindAllString perfdataSplitRegex s)[i]? = some t → rs[i]? = some r →
        perfdataParseValue L t = .ok r) := by
  have key : ∀ rs, ParsePerfdata L s = .ok rs ↔
      (FindAllString perfdataSplitRegex s ≠ [] ∧
        List.Forall₂ (fun t r => perfdataParseValue L t = .ok r)
          (FindAllString perfdataSplitRegex s) rs) := by
    intro rs
    unfold ParsePerfdata
    simp only
    by_cases hz : (FindAllString perfdataSplitRegex s).length = 0
    · rw [if_pos hz]
      have : FindAllString perfdataSplitRegex s = [] := List.length_eq_zero.1 hz
      simp [this]
    · rw [if_neg hz, parseValues_ok_iff]
      have : FindAllString perfdataSplitRegex s ≠ [] := fun h => hz (by simp [h])
      simp [this]
  constructor
  · constructor
    · rintro ⟨rs, hrs⟩
      obtain ⟨hne, hall⟩ := (key rs).1 hrs
      refine ⟨hne, ?_⟩
      exact forall₂_left_exists _ _ hall
    · rintro ⟨hne, hall⟩
      have : ∀ ts : List Str, (∀ t ∈ ts, ∃ r, perfdataParseValue L t = .ok r) →
          ∃ rs, List.Forall₂ (fun t r => perfdataParseValue L t = .ok r) ts rs := by
        intro ts
        induction ts with
        | nil => exact fun _ => ⟨[], List.Forall₂.nil⟩
        | cons t ts ih =>
          intro hts
          obtain ⟨r, hr⟩ := hts t (List.mem_cons_self _ _)
          obtain ⟨rs, hrs⟩ := ih (fun u hu => hts u (List.mem_cons_of_mem _ hu))
          exact ⟨r :: rs, List.Forall₂.cons hr hrs⟩
      obtain ⟨rs, hrs⟩ := this _ hall
      exact ⟨rs, (key rs).2 ⟨hne, hrs⟩⟩
  · intro rs hrs
    obtain ⟨hne, hall⟩ := (key rs).1 hrs
    have hlen := hall.length_eq
    refine ⟨?_, hlen.symm, ?_⟩
    · intro h
      rw [h] at hlen
      exact hne (List.length_eq_zero.1 hlen)
    · intro i t r hi hr
      obtain ⟨h1, h1'⟩ := List.getElem?_eq_some_iff.1 hi
      obtain ⟨h2, h2'⟩ := List.getElem?_eq_some_iff.1 hr
      have := (List.forall₂_iff_get.1 hall).2 i h1 h2
      simpa [h1', h2'] using this


theorem first_failure_split (L : GoLib) (ts : List Str)
    (h : ∃ t ∈ ts, ∃ e, perfdataParseValue L t = .error e) :
    ∃ pre t post err, ts = pre ++ t :: post ∧
      (∀ p ∈ pre, ∃ r, perfdataParseValue L p = .ok r) ∧
      perfdataParseValue L t = .error err := by
  induction ts with
  | nil =>
    obtain ⟨t, ht, _⟩ := h
    simp at ht
  | cons a ts ih =>
    cases ha : perfdataParseValue L a with
    | error err => exact ⟨[], a, ts, err, rfl, by simp, ha⟩
    | ok r =>
      obtain ⟨t, ht, e, he⟩ := h
      have hmem : t ∈ ts := by
        rcases List.mem_cons.1 ht with rfl | ht
        · rw [ha] at he
          cases he
        · exact ht
      obtain ⟨pre, t', post, err, hts, hpre, ht'⟩ := ih ⟨t, hmem, e, he⟩
      refine ⟨a :: pre, t', post, err, by rw [hts]; rfl, ?_, ht'⟩
      intro p hp
      rcases List.mem_cons.1 hp with rfl | hp
      · exact ⟨r, ha⟩
      · exact hpre p hp

/-- C2: when some token of `s` fails to decode, the token list is
`pre ++ t :: post` with every token of `pre` decoding and `t`, the first
failing token, failing with `err`; `ParsePerfdata s` then returns no records
and the error whose message is `"could not parse perfdata: "` followed by the
message of `err`; and every input whose token list starts with the same
`pre ++ [t]` has the same result, whatever its tokens after `t` are. -/
theorem ParsePerfdata_first_failure (L : GoLib) (s : Str)
    (h : ∃ t ∈ FindAllString perfdataSplitRegex s, ∃ e, perfdataParseValue L t = .error e) :
    ∃ pre t post err, FindAllString perfdataSplitRegex s = pre ++ t :: post ∧
      (∀ p ∈ pre, ∃ r, perfdataParseValue L p = .ok r) ∧
      perfdataParseValue L t = .error err ∧
      ParsePerfdata L s =
        .error (.errorString ("could not parse perfdata: ".toList ++ err.Error L)) ∧
      ∀ s₂ post₂, FindAllString perfdataSplitRegex s₂ = pre ++ t :: post₂ →
        ParsePerfdata L s₂ = ParsePerfdata L s := by
  obtain ⟨pre, t, post, err, hs, hpre, ht⟩ := first_failure_split L _ h
  have key : ∀ s₂ post₂, FindAllString perfdataSplitRegex s₂ = pre ++ t :: post₂ →
      ParsePerfdata L s₂ =
        .error (.errorString ("could not parse perfdata: ".toList ++ err.Error L)) := by
    intro s₂ post₂ hs₂
    unfold ParsePerfdata
    simp only
    rw [hs₂, if_neg (by simp)]
    exact parseValues_first_error L pre t post₂ err hpre ht
  refine ⟨pre, t, post, err, hs, hpre, ht, key s post hs, ?_⟩
  intro s₂ post₂ hs₂
  rw [key s₂ post₂ hs₂, key s post hs]

theorem ParsePerfdata_first_failure_witness :
    ParsePerfdata refLib "a=1 b=2;x c=y d=3".toList =
      .error (.errorString
        "could not parse perfdata: strconv.ParseFloat: parsing \"x\": invalid syntax".toList) ∧
    ∃ pre t post err,
      FindAllString perfdataSplitRegex "a=1 b=2;x c=y d=3".toList = pre ++ t :: post ∧
      (∀ p ∈ pre, ∃ r, perfdataParseValue refLib p = .ok r) ∧
      perfdataParseValue refLib t = .error err ∧
      ParsePerfdata refLib "a=1 b=2;x c=y d=3".toList =
        .error (.errorString ("could not parse perfdata: ".toList ++ err.Error refLib)) ∧
      ∀ s₂ post₂, FindAllString perfdataSplitRegex s₂ = pre ++ t :: post₂ →
        ParsePerfdata refLib s₂ = ParsePerfdata refLib "a=1 b=2;x c=y d=3".toList :=
  ⟨by decide,
    ParsePerfdata_first_failure refLib "a=1 b=2;x c=y d=3".toList
      ⟨"c=y".toList, by decide, .errorString "missing number".toList, by decide⟩⟩

/-- C4: when `perfdataParseValue` succeeds on an entry, every threshold field
of the `;`-split that is present and not empty is decoded by position:
`Warning = parseFloat(f1)`, `Critical = parseFloat(f2)`, `Min = parseFloat(f3)`,
`Max = parseFloat(f4)`. -/
theorem perfdataParseValue_thresholds_positional (L : GoLib) (e : Str) (r : Perfdata L.Float64)
    (h : perfdataParseValue L e = .ok r) :
    (∀ f, (stringsSplit ';' e)[1]? = some f → f ≠ [] → parseFloat L f = .ok r.Warning) ∧
    (∀ f, (stringsSplit ';' e)[2]? = some f → f ≠ [] → parseFloat L f = .ok r.Critical) ∧
    (∀ f, (stringsSplit ';' e)[3]? = some f → f ≠ [] → parseFloat L f = .ok r.Min) ∧
    (∀ f, (stringsSplit ';' e)[4]? = some f → f ≠ [] → parseFloat L f = .ok r.Max) := by
  obtain ⟨hlen, hMax, hMin, hCrit, hWarn, -⟩ := perfdataParseValue_ok_fields L e r h
  refine ⟨?_, ?_, ?_, ?_⟩
  · intro f hf hne
    obtain ⟨hl, _⟩ := List.getElem?_eq_some_iff.1 hf
    have hg : (stringsSplit ';' e).getD 1 [] = f := by simp [List.getD_eq_getElem?_getD, hf]
    have := hWarn.1 ⟨by omega, by rw [hg]; exact hne⟩
    rwa [hg] at this
  · intro f hf hne
    obtain ⟨hl, _⟩ := List.getElem?_eq_some_iff.1 hf
    have hg : (stringsSplit ';' e).getD 2 [] = f := by simp [List.getD_eq_getElem?_getD, hf]
    have := hCrit.1 ⟨by omega, by rw [hg]; exact hne⟩
    rwa [hg] at this
  · intro f hf hne
    obtain ⟨hl, _⟩ := List.getElem?_eq_some_iff.1 hf
    have hg : (stringsSplit ';' e).getD 3 [] = f := by simp [List.getD_eq_getElem?_getD, hf]
    have := hMin.1 ⟨by omega, by rw [hg]; exact hne⟩
    rwa [hg] at this
  · intro f hf hne
    obtain ⟨hl, _⟩ := List.getElem?_eq_some_iff.1 hf
    have hg : (stringsSplit ';' e).getD 4 [] = f := by simp [List.getD_eq_getElem?_getD, hf]
    have := hMax.1 ⟨by omega, by rw [hg]; exact hne⟩
    rwa [hg] at this

theorem perfdataParseValue_thresholds_positional_witness :
    parseFloat refLib "3".toList = .ok (RefFloat.num false 3 0) ∧
    parseFloat refLib "7,5".toList = .ok (RefFloat.num false 75 (-1)) ∧
    parseFloat refLib "0".toList = .ok (RefFloat.num false 0 0) ∧
    parseFloat refLib "100".toList = .ok (RefFloat.num false 1 2) :=
  have h := perfdataParseValue_thresholds_positional refLib "users=2%;3;7,5;0;100".toList
    { Label := "users".toList, Value := RefFloat.num false 2 0, UOM := "%".toList,
      Min := RefFloat.num false 0 0, Max := RefFloat.num false 1 2,
      Warning := RefFloat.num false 3 0, Critical := RefFloat.num false 75 (-1) }
    (by decide)
  ⟨h.1 _ (by decide) (by decide), h.2.1 _ (by decide) (by decide),
    h.2.2.1 _ (by decide) (by decide), h.2.2.2 _ (by decide) (by decide)⟩

/-- C5: when `perfdataParseValue` succeeds on an entry, a threshold whose field
is missing from the `;`-split (index 1 Warning, 2 Critical, 3 Min, 4 Max) or is
the empty string is NaN in the record. -/
theorem perfdataParseValue_absent_threshold_nan (L : GoLib) (e : Str) (r : Perfdata L.Float64)
    (h : perfdataParseValue L e = .ok r) :
    (((stringsSplit ';' e)[1]? = none ∨ (stringsSplit ';' e)[1]? = some []) → r.Warning = L.NaN) ∧
    (((stringsSplit ';' e)[2]? = none ∨ (stringsSplit ';' e)[2]? = some []) → r.Critical = L.NaN) ∧
    (((stringsSplit ';' e)[3]? = none ∨ (stringsSplit ';' e)[3]? = some []) → r.Min = L.NaN) ∧
    (((stringsSplit ';' e)[4]? = none ∨ (stringsSplit ';' e)[4]? = some []) → r.Max = L.NaN) := by
  obtain ⟨hlen, hMax, hMin, hCrit, hWarn, -⟩ := perfdataParseValue_ok_fields L e r h
  have key : ∀ k : Nat, ((stringsSplit ';' e)[k]? = none ∨ (stringsSplit ';' e)[k]? = some []) →
      (stringsSplit ';' e).getD k [] = [] := by
    intro k hk
    rcases hk with hk | hk <;> simp [List.getD_eq_getElem?_getD, hk]
  exact ⟨fun hk => hWarn.2 (fun hc => hc.2 (key 1 hk)), fun hk => hCrit.2 (fun hc => hc.2 (key 2 hk)),
    fun hk => hMin.2 (fun hc => hc.2 (key 3 hk)), fun hk => hMax.2 (fun hc => hc.2 (key 4 hk))⟩

theorem perfdataParseValue_absent_threshold_nan_witness :
    (Perfdata.Warning (F := RefFloat)
        { Label := "users".toList, Value := RefFloat.num false 2 0, UOM := [],
          Min := RefFloat.nan, Max := RefFloat.nan, Warning := RefFloat.nan,
          Critical := RefFloat.num false 7 0 }) = refLib.NaN ∧
    (Perfdata.Max (F := RefFloat)
        { Label := "users".toList, Value := RefFloat.num false 2 0, UOM := [],
          Min := RefFloat.nan, Max := RefFloat.nan, Warning := RefFloat.nan,
          Critical := RefFloat.num false 7 0 }) = refLib.NaN :=
  have h := perfdataParseValue_absent_threshold_nan refLib "users=2;;7;".toList
    { Label := "users".toList, Value := RefFloat.num false 2 0, UOM := [],
      Min := RefFloat.nan, Max := RefFloat.nan, Warning := RefFloat.nan,
      Critical := RefFloat.num false 7 0 }
    (by decide)
  ⟨h.1 (Or.inr (by decide)), h.2.2.2 (Or.inl (by decide))⟩

/-- C6: `perfdataParseValue e` fails with the error `invalid perfdata string`
exactly when the `;`-split of `e` has no field or more than five, that is
exactly when `e` holds at least five `;`: the split has one field more than `e`
has `;`, so it never has none.  Whatever the fields hold, six or more fields
fail this way and five or fewer never do. -/
theorem perfdataParseValue_malformed_iff (L : GoLib) (e : Str) :
    (stringsSplit ';' e).length = e.count ';' + 1 ∧
    (perfdataParseValue L e = .error (.errorString "invalid perfdata string".toList) ↔
      ((stringsSplit ';' e).length = 0 ∨ 5 < (stringsSplit ';' e).length)) ∧
    (perfdataParseValue L e = .error (.errorString "invalid perfdata string".toList) ↔
      5 ≤ e.count ';') := by
  have hlen := stringsSplit_length ';' e
  have main : perfdataParseValue L e = .error (.errorString "invalid perfdata string".toList) ↔
      5 < (stringsSplit ';' e).length := by
    constructor
    · intro h
      rcases perfdataParseValue_error_cases L e _ h with ⟨h5, _⟩ | ⟨_, hc⟩
      · exact h5
      · exfalso
        rcases hc with hc | hc | hc | hc | ⟨f, hf⟩
        · exact absurd hc (by decide)
        · exact absurd hc (by decide)
        · exact absurd hc (by decide)
        · exact absurd hc (by decide)
        · obtain ⟨k, _, hk⟩ := parseFloat_error L f _ hf
          cases hk
    · exact perfdataParseValue_too_many L e
  refine ⟨hlen, ?_, ?_⟩
  · rw [main]
    constructor
    · exact Or.inr
    · rintro (h | h)
      · omega
      · exact h
  · rw [main]
    omega


theorem stringsSplit_head (sep : Char) (s : Str) :
    (stringsSplit sep s)[0]? = some ((stringsSplit sep s).getD 0 []) := by
  have := stringsSplit_length sep s
  cases hs : stringsSplit sep s with
  | nil => simp [hs] at this
  | cons f fs => simp

theorem getD_append_cons (l : Str) (c : Char) (t : Str) (d : Char) :
    (l ++ c :: t).getD l.length d = c := by
  induction l with
  | nil => simp
  | cons a l ih => simpa using ih

theorem drop_length_takeWhile (p : Char → Bool) (l : Str) :
    l.drop (l.takeWhile p).length = l.dropWhile p := by
  induction l with
  | nil => simp
  | cons a l ih =>
    by_cases ha : p a = true
    · simp [List.takeWhile, List.dropWhile, ha, ih]
    · simp [List.takeWhile, List.dropWhile, ha]

theorem parseLabelValue_shape (L : GoLib) (d : Str) (pd r : Perfdata L.Float64)
    (h : parseLabelValue L d pd = .ok r) :
    r.Label = FindStringAnchored perfdataLabelRegex d ∧ r.Label ≠ [] ∧
    labelRest d = '=' :: (List.takeWhile isNumChar (labelRest d).tail ++ r.UOM) ∧
    List.takeWhile isNumChar (labelRest d).tail ≠ [] ∧
    parseFloat L (List.takeWhile isNumChar (labelRest d).tail) = .ok r.Value ∧
    r.UOM = List.dropWhile isNumChar (labelRest d).tail := by
  obtain ⟨-, -, -, -, hLab, hne, hlen, heq, hraw, hval, huom⟩ := parseLabelValue_ok L d pd r h
  have hd := FindStringAnchored_label d
  rw [← hLab] at hd
  cases hrest : labelRest d with
  | nil =>
    rw [hrest] at hd
    exact absurd (by rw [hd]; simp) hlen
  | cons c vu =>
    rw [hrest] at hd
    have hc : c = '=' := by
      have : d.getD r.Label.length ' ' = c := by
        rw [hd]
        exact getD_append_cons _ _ _ _
      rw [this] at heq
      exact heq
    subst hc
    have hdrop : d.drop (r.Label.length + 1) = vu := by
      rw [hd]
      simp
    rw [hdrop, FindStringAnchored_value] at hraw hval huom
    have huom' : r.UOM = List.dropWhile isNumChar vu := by
      rw [huom]
      have hsplit := List.takeWhile_append_dropWhile isNumChar vu
      by_cases hl : (List.takeWhile isNumChar vu).length = vu.length
      · rw [if_pos hl]
        have := congrArg List.length hsplit
        simp only [List.length_append] at this
        have hz : (List.dropWhile isNumChar vu).length = 0 := by omega
        exact (List.length_eq_zero.1 hz).symm
      · rw [if_neg hl]
        exact drop_length_takeWhile isNumChar vu
    refine ⟨hLab, hne, ?_, hraw, hval, huom'⟩
    simp only [List.tail_cons]
    rw [huom', List.takeWhile_append_dropWhile]

/-- C7: when `perfdataParseValue` succeeds with record `r`, the label of `r`
is not empty and the first `;`-delimited field of the entry is
`r.Label ++ "=" ++ n ++ r.UOM`, where `n` is a non-empty text of digits, `.`
and `,` with `r.Value = parseFloat(n)`, and `r.UOM` is empty or begins with a
character that is none of these. -/
theorem perfdataParseValue_first_field (L : GoLib) (e : Str) (r : Perfdata L.Float64)
    (h : perfdataParseValue L e = .ok r) :
    r.Label ≠ [] ∧
    ∃ n : Str, n ≠ [] ∧ (∀ c ∈ n, isNumChar c = true) ∧
      (stringsSplit ';' e)[0]? = some (r.Label ++ '=' :: (n ++ r.UOM)) ∧
      parseFloat L n = .ok r.Value ∧
      (r.UOM = [] ∨ ∃ c u, r.UOM = c :: u ∧ isNumChar c = false) := by
  obtain ⟨-, -, -, -, -, pd, hpd⟩ := perfdataParseValue_ok_fields L e r h
  obtain ⟨hLab, hne, hrest, hraw, hval, huom⟩ := parseLabelValue_shape L _ pd r hpd
  refine ⟨hne, List.takeWhile isNumChar (labelRest ((stringsSplit ';' e).getD 0 [])).tail,
    hraw, ?_, ?_, hval, ?_⟩
  · intro c hc
    exact (List.mem_takeWhile_imp hc)
  · rw [stringsSplit_head, ← hrest, hLab]
    exact congrArg some (FindStringAnchored_label _)
  · cases hu : r.UOM with
    | nil => exact Or.inl rfl
    | cons c u =>
      refine Or.inr ⟨c, u, rfl, ?_⟩
      rw [hu] at huom
      exact dropWhile_head_false isNumChar _ c u huom.symm

theorem perfdataParseValue_first_field_witness :
    ∃ n : Str, n ≠ [] ∧ (∀ c ∈ n, isNumChar c = true) ∧
      (stringsSplit ';' "'disk /'=2,5GB;3".toList)[0]? =
        some ("'disk /'".toList ++ '=' :: (n ++ "GB".toList)) ∧
      parseFloat refLib n = .ok (RefFloat.num false 25 (-1)) ∧
      ("GB".toList = [] ∨ ∃ c u, "GB".toList = c :: u ∧ isNumChar c = false) :=
  (perfdataParseValue_first_field refLib "'disk /'=2,5GB;3".toList
    { Label := "'disk /'".toList, Value := RefFloat.num false 25 (-1), UOM := "GB".toList,
      Min := RefFloat.nan, Max := RefFloat.nan, Warning := RefFloat.num false 3 0,
      Critical := RefFloat.nan }
    (by decide)).2


/-! ## The tokenizer and the split failure -/

theorem quotedRest_some (s r : Str) (h : quotedRest s = some r) :
    (∃ t, s = quote :: t) ∧ r.length < s.length := by
  match s, h with
  | c :: d :: u, h =>
    simp only [quotedRest] at h
    by_cases hc : c = quote ∧ notQuote d = true
    · rw [if_pos hc] at h
      cases hdw : u.dropWhile notQuote with
      | nil => simp [hdw] at h
      | cons x rest =>
        simp only [hdw, Option.some.injEq] at h
        subst h
        have hle : (u.dropWhile notQuote).length ≤ u.length :=
          (List.dropWhile_sublist notQuote).length_le
        rw [hdw] at hle
        simp only [List.length_cons] at hle ⊢
        exact ⟨⟨d :: u, by rw [hc.1]⟩, by omega⟩
    · rw [if_neg hc] at h
      cases h

theorem notSpace_quote : notSpace quote = true := by decide

theorem split_matchAt_none (s : Str) (h : s.takeWhile notSpace = []) :
    perfdataSplitRegex.matchAt s = none := by
  have hq : quotedRest s = none := by
    cases hr : quotedRest s with
    | none => rfl
    | some r =>
      obtain ⟨⟨t, ht⟩, _⟩ := quotedRest_some s r hr
      subst ht
      simp [List.takeWhile, notSpace_quote] at h
  have hh := split_run_head s
  simp only [hq, plus_run_head, h, if_true] at hh
  simp [Regex.matchAt, hh]

theorem length_dropWhile_lt (p : Char → Bool) (s : Str) (h : s.takeWhile p ≠ []) :
    (s.dropWhile p).length < s.length := by
  have h1 := congrArg List.length (List.takeWhile_append_dropWhile p s)
  simp only [List.length_append] at h1
  have h2 : 0 < (s.takeWhile p).length := List.length_pos.2 h
  omega

theorem split_matchAt_some (s : Str) (h : s.takeWhile notSpace ≠ []) :
    ∃ m rest, perfdataSplitRegex.matchAt s = some (m, rest) ∧ m ≠ [] ∧ s = m ++ rest := by
  have hh := split_run_head s
  have hex : ∃ rest, (perfdataSplitRegex.run s).head? = some rest ∧ rest.length < s.length := by
    cases hr : quotedRest s with
    | none =>
      simp only [hr, plus_run_head, h, if_false] at hh
      exact ⟨_, hh, length_dropWhile_lt _ _ h⟩
    | some r =>
      simp only [hr, plus_run_head, h, if_false] at hh
      by_cases hr' : r.takeWhile notSpace = []
      · rw [if_pos hr'] at hh
        exact ⟨_, hh, length_dropWhile_lt _ _ h⟩
      · rw [if_neg hr'] at hh
        refine ⟨_, hh, ?_⟩
        have := length_dropWhile_lt _ _ hr'
        have := (quotedRest_some s r hr).2
        omega
  obtain ⟨rest, hrest, hlt⟩ := hex
  obtain ⟨m, hm⟩ := run_suffix _ s rest (List.mem_of_mem_head? hrest)
  refine ⟨m, rest, matchAt_of_head _ _ _ _ hrest hm, ?_, hm⟩
  intro hnil
  subst hnil
  simp at hm
  subst hm
  exact absurd hlt (lt_irrefl _)

theorem findAllAux_nil_iff (n : Nat) (b : Bool) (s : Str) (hn : s.length < n) :
    findAllAux perfdataSplitRegex n b s = [] ↔ ∀ c ∈ s, isSpace c = true := by
  induction s generalizing n b with
  | nil =>
    cases n with
    | zero => simp at hn
    | succ n => simp [findAllAux, split_matchAt_none [] rfl]
  | cons c t ih =>
    cases n with
    | zero => simp at hn
    | succ n =>
      by_cases hc : isSpace c = true
      · have hnone : perfdataSplitRegex.matchAt (c :: t) = none :=
          split_matchAt_none _ (by simp [List.takeWhile, notSpace, hc])
        simp only [findAllAux, hnone]
        rw [ih n false (by simpa using hn)]
        simp [hc]
      · obtain ⟨m, rest, hm, hne, _⟩ := split_matchAt_some (c :: t)
          (by simp [List.takeWhile, notSpace, hc])
        simp only [findAllAux, hm, if_neg hne]
        simp [hc]

theorem parseValues_error (L : GoLib) (ts : List Str) (e : GoError)
    (h : parseValues L ts = .error e) :
    ∃ m, e = .errorString ("could not parse perfdata: ".toList ++ m) := by
  induction ts with
  | nil => simp [parseValues] at h
  | cons t ts ih =>
    cases hp : perfdataParseValue L t with
    | error err =>
      simp only [parseValues, hp, Except.error.injEq] at h
      exact ⟨_, h.symm⟩
    | ok v =>
      cases hrest : parseValues L ts with
      | error e' =>
        simp only [parseValues, hp, hrest, Except.error.injEq] at h
        subst h
        exact ih hrest
      | ok vs => simp [parseValues, hp, hrest] at h

/-- C3: `ParsePerfdata s` fails with the split failure, the error with message
`"could not split perfdata: "` followed by `s`, exactly when every character
of `s` is one of space, tab, newline, form feed and carriage return (the empty
`s` included); an input with a character that is none of these has at least
one token. -/
theorem ParsePerfdata_split_failure_iff (L : GoLib) (s : Str) :
    (ParsePerfdata L s = .error (.errorString ("could not split perfdata: ".toList ++ s)) ↔
      ∀ c ∈ s, isSpace c = true) ∧
    ((∃ c ∈ s, isSpace c = false) → FindAllString perfdataSplitRegex s ≠ []) := by
  have htok : FindAllString perfdataSplitRegex s = [] ↔ ∀ c ∈ s, isSpace c = true :=
    findAllAux_nil_iff (s.length + 1) false s (Nat.lt_succ_self _)
  constructor
  · rw [← htok]
    unfold ParsePerfdata
    simp only
    by_cases hz : (FindAllString perfdataSplitRegex s).length = 0
    · rw [if_pos hz]
      simp [List.length_eq_zero.1 hz]
    · rw [if_neg hz]
      constructor
      · intro h
        obtain ⟨m, hm⟩ := parseValues_error L _ _ h
        simp only [GoError.errorString.injEq] at hm
        have := (List.append_inj hm (by decide)).1
        exact absurd this (by decide)
      · intro h
        exact absurd (by simp [h]) hz
  · rintro ⟨c, hc, hsp⟩ h
    have := htok.1 h c hc
    rw [hsp] at this
    cases this


/-! ## Entries of a given shape -/

theorem dropWhile_append_of_all (p : Char → Bool) (l t : Str) (h : ∀ c ∈ l, p c = true) :
    (l ++ t).dropWhile p = t.dropWhile p := by
  induction l with
  | nil => rfl
  | cons a l ih =>
    have ha : p a = true := h a (List.mem_cons_self _ _)
    simp only [List.cons_append, List.dropWhile, ha]
    exact ih (fun c hc => h c (List.mem_cons_of_mem _ hc))

theorem takeWhile_eq_self (p : Char → Bool) (l : Str) (h : ∀ c ∈ l, p c = true) :
    l.takeWhile p = l := by
  induction l with
  | nil => rfl
  | cons a l ih =>
    have ha : p a = true := h a (List.mem_cons_self _ _)
    simp only [List.takeWhile, ha]
    rw [ih (fun c hc => h c (List.mem_cons_of_mem _ hc))]

theorem dropWhile_eq_nil (p : Char → Bool) (l : Str) (h : ∀ c ∈ l, p c = true) :
    l.dropWhile p = [] := by
  have := dropWhile_append_of_all p l [] h
  simpa using this

theorem stringsSplit_single (sep : Char) (s : Str) (h : ∀ c ∈ s, c ≠ sep) :
    stringsSplit sep s = [s] := by
  induction s with
  | nil => rfl
  | cons a s ih =>
    have ha : a ≠ sep := h a (List.mem_cons_self _ _)
    simp only [stringsSplit, if_neg ha]
    rw [ih (fun c hc => h c (List.mem_cons_of_mem _ hc))]

/-- The third part of `perfdataParseValue`, read off the label and the text
after it. -/
theorem parseLabelValue_eq (L : GoLib) (d : Str) (pd : Perfdata L.Float64) :
    parseLabelValue L d pd =
      if FindStringAnchored perfdataLabelRegex d = [] then
        .error (.errorString "invalid label".toList)
      else
        match labelRest d with
        | [] => .error (.errorString "no value found".toList)
        | c :: vu =>
          if c ≠ '=' then .error (.errorString "invalid format".toList)
          else if vu.takeWhile isNumChar = [] then .error (.errorString "missing number".toList)
          else
            match parseFloat L (vu.takeWhile isNumChar) with
            | .error err => .error err
            | .ok v =>
              .ok { pd with Label := FindStringAnchored perfdataLabelRegex d, Value := v,
                            UOM := vu.dropWhile isNumChar } := by
  have hd := FindStringAnchored_label d
  unfold parseLabelValue
  simp only
  by_cases h1 : FindStringAnchored perfdataLabelRegex d = []
  · rw [if_pos h1, if_pos h1]
  rw [if_neg h1, if_neg h1]
  cases hrest : labelRest d with
  | nil =>
    rw [hrest] at hd
    have aux : ∀ lab : Str, d = lab ++ [] → lab.length = d.length := by
      intro lab hl
      subst hl
      simp
    have := aux _ hd
    rw [if_pos this]
  | cons c vu =>
    rw [hrest] at hd
    have aux : ∀ lab : Str, d = lab ++ c :: vu →
        lab.length ≠ d.length ∧ d.getD lab.length ' ' = c ∧ d.drop (lab.length + 1) = vu := by
      intro lab hl
      subst hl
      exact ⟨by simp, getD_append_cons _ _ _ _, by simp⟩
    obtain ⟨hlen, hget, hdrop⟩ := aux _ hd
    rw [if_neg hlen, hget, hdrop, FindStringAnchored_value]
    simp only
    by_cases hc : c ≠ '='
    · rw [if_pos hc, if_pos hc]
    rw [if_neg hc, if_neg hc]
    by_cases hraw : vu.takeWhile isNumChar = []
    · rw [if_pos hraw, if_pos hraw]
    rw [if_neg hraw, if_neg hraw]
    cases parseFloat L (vu.takeWhile isNumChar) with
    | error err => rfl
    | ok v =>
      simp only
      have : (if (vu.takeWhile isNumChar).length = vu.length then []
          else vu.drop (vu.takeWhile isNumChar).length) = vu.dropWhile isNumChar := by
        by_cases hl : (vu.takeWhile isNumChar).length = vu.length
        · rw [if_pos hl]
          have h1 := congrArg List.length (List.takeWhile_append_dropWhile isNumChar vu)
          simp only [List.length_append] at h1
          have hz : (vu.dropWhile isNumChar).length = 0 := by omega
          exact (List.length_eq_zero.1 hz).symm
        · rw [if_neg hl]
          exact drop_length_takeWhile isNumChar vu
      rw [this]

theorem perfdataParseValue_single (L : GoLib) (e : Str) (h : ∀ c ∈ e, c ≠ ';') :
    perfdataParseValue L e =
      parseLabelValue L e
        { Label := [], Value := L.NaN, UOM := [], Warning := L.NaN, Critical := L.NaN,
          Min := L.NaN, Max := L.NaN } := by
  unfold perfdataParseValue
  simp only [stringsSplit_single ';' e h]
  simp [parseThreshold]

theorem findAll_single (s : Str) (hs : s ≠ [])
    (h : perfdataSplitRegex.matchAt s = some (s, [])) :
    FindAllString perfdataSplitRegex s = [s] := by
  unfold FindAllString
  simp only [findAllAux, h, if_neg hs]
  cases hl : s.length with
  | zero => exact absurd (List.length_eq_zero.1 hl) hs
  | succ n => simp [findAllAux, split_matchAt_none [] rfl]

theorem isNumChar_notSpace (c : Char) (h : isNumChar c = true) : notSpace c = true := by
  cases hs : isSpace c with
  | false => simp [notSpace, hs]
  | true =>
    exfalso
    simp only [isSpace, Bool.or_eq_true, decide_eq_true_eq] at hs
    rcases hs with (((hs | hs) | hs) | hs) | hs <;> subst hs <;> revert h <;> decide

theorem isNumChar_not_semicolon (c : Char) (h : isNumChar c = true) : c ≠ ';' := by
  intro hc
  subst hc
  revert h
  decide


theorem quotedRest_none_of_head (a : Char) (t : Str) (h : a ≠ quote) :
    quotedRest (a :: t) = none := by
  cases t with
  | nil => rfl
  | cons d u => simp [quotedRest, h]

theorem quotedRest_quoted (q r : Str) (hq : q ≠ []) (hqc : ∀ c ∈ q, c ≠ quote) :
    quotedRest (quote :: (q ++ quote :: r)) = some r := by
  cases q with
  | nil => exact absurd rfl hq
  | cons d u =>
    have hd : notQuote d = true := by
      simpa [notQuote] using hqc d (List.mem_cons_self _ _)
    have hu : ∀ c ∈ u, notQuote c = true := by
      intro c hc
      simpa [notQuote] using hqc c (List.mem_cons_of_mem _ hc)
    have hdw : (u ++ quote :: r).dropWhile notQuote = quote :: r := by
      rw [dropWhile_append_of_all notQuote u _ hu]
      simp [List.dropWhile, notQuote]
    simp only [List.cons_append, quotedRest, hd, and_self, if_true, hdw]

theorem matchAt_whole (r : Regex) (s : Str) (h : (r.run s).head? = some []) :
    r.matchAt s = some (s, []) :=
  matchAt_of_head r s s [] h (by simp)

theorem label_of_rest (d lab rest : Str) (hd : d = lab ++ rest) (hrest : labelRest d = rest) :
    FindStringAnchored perfdataLabelRegex d = lab := by
  have h := FindStringAnchored_label d
  rw [hrest] at h
  have : lab ++ rest = FindStringAnchored perfdataLabelRegex d ++ rest := by rw [← hd, ← h]
  exact (List.append_cancel_right this).symm

theorem parseLabelValue_numeric (L : GoLib) (d lab v : Str) (x : L.Float64)
    (pd : Perfdata L.Float64) (hd : d = lab ++ '=' :: v) (hrest : labelRest d = '=' :: v)
    (hlab : lab ≠ []) (hv : v ≠ []) (hvc : ∀ c ∈ v, isNumChar c = true)
    (hx : parseFloat L v = .ok x) :
    parseLabelValue L d pd = .ok { pd with Label := lab, Value := x, UOM := [] } := by
  rw [parseLabelValue_eq, label_of_rest d lab _ hd hrest, if_neg hlab, hrest]
  simp only [ne_eq, not_true_eq_false, if_false]
  rw [takeWhile_eq_self isNumChar v hvc, if_neg hv, hx, dropWhile_eq_nil isNumChar v hvc]

/-- C8: for a non-empty label `l` without `=`, `;`, white space and quote, and
a non-empty numeric text `v` (digits, `.`, `,`) that `parseFloat` converts to
the number `x`, `ParsePerfdata (l ++ "=" ++ v)` succeeds with exactly one
record: label `l`, value `x`, empty unit, the four thresholds NaN. -/
theorem ParsePerfdata_plain_entry (L : GoLib) (l v : Str) (x : L.Float64)
    (hl : l ≠ [])
    (hlc : ∀ c ∈ l, c ≠ '=' ∧ c ≠ ';' ∧ isSpace c = false ∧ c ≠ quote)
    (hv : v ≠ []) (hvc : ∀ c ∈ v, isNumChar c = true)
    (hx : parseFloat L v = .ok x) :
    ParsePerfdata L (l ++ '=' :: v) =
      .ok [{ Label := l, Value := x, UOM := [], Min := L.NaN, Max := L.NaN,
             Warning := L.NaN, Critical := L.NaN }] := by
  have hne : l ++ '=' :: v ≠ [] := by simp
  have hns : ∀ c ∈ l ++ '=' :: v, notSpace c = true := by
    intro c hc
    rcases List.mem_append.1 hc with hc | hc
    · simp [notSpace, (hlc c hc).2.2.1]
    · rcases List.mem_cons.1 hc with rfl | hc
      · decide
      · exact isNumChar_notSpace c (hvc c hc)
  have hsemi : ∀ c ∈ l ++ '=' :: v, c ≠ ';' := by
    intro c hc
    rcases List.mem_append.1 hc with hc | hc
    · exact (hlc c hc).2.1
    · rcases List.mem_cons.1 hc with rfl | hc
      · decide
      · exact isNumChar_not_semicolon c (hvc c hc)
  have hq : quotedRest (l ++ '=' :: v) = none := by
    cases l with
    | nil => exact absurd rfl hl
    | cons a l' => exact quotedRest_none_of_head a _ (hlc a (List.mem_cons_self _ _)).2.2.2
  have htok : FindAllString perfdataSplitRegex (l ++ '=' :: v) = [l ++ '=' :: v] := by
    apply findAll_single _ hne
    apply matchAt_whole
    have hh := split_run_head (l ++ '=' :: v)
    rw [hq] at hh
    simp only [plus_run_head, takeWhile_eq_self notSpace _ hns, if_neg hne,
      dropWhile_eq_nil notSpace _ hns] at hh
    exact hh
  have hrest : labelRest (l ++ '=' :: v) = '=' :: v := by
    simp only [labelRest, hq, Option.getD_none]
    rw [dropWhile_append_of_all notEqQuote l _
      (fun c hc => by simp [notEqQuote, (hlc c hc).1, (hlc c hc).2.2.2])]
    simp [List.dropWhile, notEqQuote]
  unfold ParsePerfdata
  simp only [htok, List.length_singleton, one_ne_zero, if_false, parseValues]
  rw [perfdataParseValue_single L _ hsemi,
    parseLabelValue_numeric L _ l v x _ rfl hrest hl hv hvc hx]

theorem ParsePerfdata_plain_entry_witness :
    ParsePerfdata refLib "users=2,34".toList =
      .ok [{ Label := "users".toList, Value := RefFloat.num false 234 (-2), UOM := [],
             Min := RefFloat.nan, Max := RefFloat.nan, Warning := RefFloat.nan,
             Critical := RefFloat.nan }] :=
  ParsePerfdata_plain_entry refLib "users".toList "2,34".toList (RefFloat.num false 234 (-2))
    (by decide) (by decide) (by decide) (by decide) (by decide)

/-- C9: for a non-empty text `q` without quote and `;` (white space and `=` are
allowed in it) and a non-empty numeric text `v` that `parseFloat` converts to
`x`, `ParsePerfdata ("'" ++ q ++ "'=" ++ v)` succeeds with exactly one record,
whose label is `'q'` with both quotes kept: white space inside the quoted
label does not split the entry. -/
theorem ParsePerfdata_quoted_entry (L : GoLib) (q v : Str) (x : L.Float64)
    (hq : q ≠ []) (hqc : ∀ c ∈ q, c ≠ quote ∧ c ≠ ';')
    (hv : v ≠ []) (hvc : ∀ c ∈ v, isNumChar c = true)
    (hx : parseFloat L v = .ok x) :
    ParsePerfdata L (quote :: (q ++ quote :: '=' :: v)) =
      .ok [{ Label := quote :: (q ++ [quote]), Value := x, UOM := [], Min := L.NaN,
             Max := L.NaN, Warning := L.NaN, Critical := L.NaN }] := by
  have hne : quote :: (q ++ quote :: '=' :: v) ≠ [] := by simp
  have hvs : ∀ c ∈ '=' :: v, notSpace c = true := by
    intro c hc
    rcases List.mem_cons.1 hc with rfl | hc
    · decide
    · exact isNumChar_notSpace c (hvc c hc)
  have hsemi : ∀ c ∈ quote :: (q ++ quote :: '=' :: v), c ≠ ';' := by
    intro c hc
    rcases List.mem_cons.1 hc with rfl | hc
    · decide
    rcases List.mem_append.1 hc with hc | hc
    · exact (hqc c hc).2
    rcases List.mem_cons.1 hc with rfl | hc
    · decide
    rcases List.mem_cons.1 hc with rfl | hc
    · decide
    · exact isNumChar_not_semicolon c (hvc c hc)
  have hqr : quotedRest (quote :: (q ++ quote :: '=' :: v)) = some ('=' :: v) :=
    quotedRest_quoted q _ hq (fun c hc => (hqc c hc).1)
  have htok : FindAllString perfdataSplitRegex (quote :: (q ++ quote :: '=' :: v)) =
      [quote :: (q ++ quote :: '=' :: v)] := by
    apply findAll_single _ hne
    apply matchAt_whole
    have hh := split_run_head (quote :: (q ++ quote :: '=' :: v))
    rw [hqr] at hh
    simp only [takeWhile_eq_self notSpace _ hvs, dropWhile_eq_nil notSpace _ hvs] at hh
    rw [if_neg (by simp)] at hh
    exact hh
  have hrest : labelRest (quote :: (q ++ quote :: '=' :: v)) = '=' :: v := by
    simp only [labelRest, hqr, Option.getD_some]
    simp [List.dropWhile, notEqQuote]
  unfold ParsePerfdata
  simp only [htok, List.length_singleton, one_ne_zero, if_false, parseValues]
  rw [perfdataParseValue_single L _ hsemi,
    parseLabelValue_numeric L _ (quote :: (q ++ [quote])) v x _ (by simp) hrest (by simp)
      hv hvc hx]

theorem ParsePerfdata_quoted_entry_witness :
    ParsePerfdata refLib "'disk = /var tmp'=2.5".toList =
      .ok [{ Label := "'disk = /var tmp'".toList, Value := RefFloat.num false 25 (-1),
             UOM := [], Min := RefFloat.nan, Max := RefFloat.nan, Warning := RefFloat.nan,
             Critical := RefFloat.nan }] :=
  ParsePerfdata_quoted_entry refLib "disk = /var tmp".toList "2.5".toList
    (RefFloat.num false 25 (-1)) (by decide) (by decide) (by decide) (by decide) (by decide)


/-! ## Replacing `,` by `.` in an entry -/

theorem replace_class (p : Char → Bool) (hp : p ',' = p '.') (c : Char) :
    p (if c = ',' then '.' else c) = p c := by
  by_cases h : c = ','
  · subst h
    simp [hp]
  · simp [h]

theorem replace_eq_iff (a : Char) (ha : a ≠ ',') (ha' : a ≠ '.') (c : Char) :
    (if c = ',' then '.' else c) = a ↔ c = a := by
  by_cases h : c = ','
  · subst h
    simp [ha.symm, ha'.symm]
  · simp [h]

theorem stringsReplace_idem (s : Str) :
    stringsReplace ',' '.' (stringsReplace ',' '.' s) = stringsReplace ',' '.' s := by
  simp only [stringsReplace, List.map_map]
  apply List.map_congr_left
  intro c _
  by_cases h : c = ','
  · subst h; decide
  · simp [h]

theorem parseFloat_replace (L : GoLib) (s : Str) :
    parseFloat L (stringsReplace ',' '.' s) = parseFloat L s := by
  unfold parseFloat
  rw [stringsReplace_idem]

theorem stringsReplace_eq_nil (s : Str) : stringsReplace ',' '.' s = [] ↔ s = [] := by
  simp [stringsReplace]

theorem stringsReplace_of_no_comma (s : Str) (h : ∀ c ∈ s, c ≠ ',') :
    stringsReplace ',' '.' s = s := by
  unfold stringsReplace
  conv_rhs => rw [← List.map_id s]
  apply List.map_congr_left
  intro c hc
  simp [h c hc]

theorem takeWhile_replace (p : Char → Bool) (hp : p ',' = p '.') (s : Str) :
    (stringsReplace ',' '.' s).takeWhile p = stringsReplace ',' '.' (s.takeWhile p) := by
  induction s with
  | nil => rfl
  | cons a s ih =>
    have ha := replace_class p hp a
    simp only [stringsReplace, List.map_cons, List.takeWhile] at ih ⊢
    rw [ha]
    cases p a with
    | true => simp [ih]
    | false => simp

theorem dropWhile_replace (p : Char → Bool) (hp : p ',' = p '.') (s : Str) :
    (stringsReplace ',' '.' s).dropWhile p = stringsReplace ',' '.' (s.dropWhile p) := by
  induction s with
  | nil => rfl
  | cons a s ih =>
    have ha := replace_class p hp a
    simp only [stringsReplace, List.map_cons, List.dropWhile] at ih ⊢
    rw [ha]
    cases p a with
    | true => simp [ih]
    | false => simp

theorem quotedRest_replace (s : Str) :
    quotedRest (stringsReplace ',' '.' s) = (quotedRest s).map (stringsReplace ',' '.') := by
  match s with
  | [] => rfl
  | [_] => rfl
  | c :: d :: u =>
    have hc := replace_eq_iff quote (by decide) (by decide) c
    have hd := replace_class notQuote (by decide) d
    have hu := dropWhile_replace notQuote (by decide) u
    simp only [stringsReplace, List.map_cons] at hu ⊢
    simp only [quotedRest, hc, hd, hu]
    by_cases hcd : c = quote ∧ notQuote d = true
    · rw [if_pos hcd, if_pos hcd]
      cases u.dropWhile notQuote with
      | nil => rfl
      | cons x rest => rfl
    · rw [if_neg hcd, if_neg hcd]
      rfl

theorem labelRest_replace (s : Str) :
    labelRest (stringsReplace ',' '.' s) = stringsReplace ',' '.' (labelRest s) := by
  simp only [labelRest, quotedRest_replace]
  cases quotedRest s with
  | none => exact dropWhile_replace notEqQuote (by decide) s
  | some r => exact dropWhile_replace notEqQuote (by decide) r

theorem label_replace (s : Str) :
    FindStringAnchored perfdataLabelRegex (stringsReplace ',' '.' s) =
      stringsReplace ',' '.' (FindStringAnchored perfdataLabelRegex s) := by
  apply label_of_rest _ _ (stringsReplace ',' '.' (labelRest s)) _ (labelRest_replace s)
  conv_lhs => rw [FindStringAnchored_label s]
  simp [stringsReplace]

theorem stringsSplit_replace (s : Str) :
    stringsSplit ';' (stringsReplace ',' '.' s) =
      (stringsSplit ';' s).map (stringsReplace ',' '.') := by
  induction s with
  | nil => rfl
  | cons a s ih =>
    have ha := replace_eq_iff ';' (by decide) (by decide) a
    simp only [stringsReplace, List.map_cons] at ih ⊢
    by_cases h : a = ';'
    · have h' := ha.2 h
      simp only [stringsSplit, if_pos h, if_pos h', ih]
      rfl
    · have h' : ¬ (if a = ',' then '.' else a) = ';' := fun hh => h (ha.1 hh)
      simp only [stringsSplit, if_neg h, if_neg h', ih]
      cases stringsSplit ';' s with
      | nil => rfl
      | cons f fs => rfl


theorem getD_map_replace (data : List Str) (k : Nat) :
    (data.map (stringsReplace ',' '.')).getD k [] = stringsReplace ',' '.' (data.getD k []) := by
  simp only [List.getD_eq_getElem?_getD, List.getElem?_map]
  cases data[k]? with
  | none => rfl
  | some f => rfl

theorem parseThreshold_replace (L : GoLib) (b : Bool) (f : Str)
    (set : Perfdata L.Float64 → L.Float64 → Perfdata L.Float64) (pd : Perfdata L.Float64) :
    parseThreshold L b (stringsReplace ',' '.' f) set pd = parseThreshold L b f set pd := by
  unfold parseThreshold
  rw [parseFloat_replace]
  have : (stringsReplace ',' '.' f ≠ []) ↔ (f ≠ []) := not_congr (stringsReplace_eq_nil f)
  simp only [this]

theorem parseLabelValue_replace (L : GoLib) (d : Str) (pd : Perfdata L.Float64) :
    parseLabelValue L (stringsReplace ',' '.' d) pd =
      (parseLabelValue L d pd).map Perfdata.replaceComma := by
  rw [parseLabelValue_eq, parseLabelValue_eq, label_replace, labelRest_replace]
  have hnil := stringsReplace_eq_nil (FindStringAnchored perfdataLabelRegex d)
  by_cases h1 : FindStringAnchored perfdataLabelRegex d = []
  · rw [if_pos h1, if_pos (hnil.2 h1)]
    rfl
  rw [if_neg h1, if_neg (fun h => h1 (hnil.1 h))]
  cases labelRest d with
  | nil => rfl
  | cons c vu =>
    have hc := replace_eq_iff '=' (by decide) (by decide) c
    have htw := takeWhile_replace isNumChar (by decide) vu
    have hdw := dropWhile_replace isNumChar (by decide) vu
    simp only [stringsReplace, List.map_cons] at htw hdw ⊢
    simp only [ne_eq, hc, htw, hdw]
    by_cases hc' : c = '='
    · simp only [hc', not_true_eq_false, if_false]
      have hraw := stringsReplace_eq_nil (vu.takeWhile isNumChar)
      have hpf := parseFloat_replace L (vu.takeWhile isNumChar)
      simp only [stringsReplace] at hraw hpf
      by_cases h2 : vu.takeWhile isNumChar = []
      · rw [if_pos h2, if_pos (hraw.2 h2)]
        rfl
      · rw [if_neg h2, if_neg (fun h => h2 (hraw.1 h)), hpf]
        cases parseFloat L (vu.takeWhile isNumChar) with
        | error err => rfl
        | ok v => rfl
    · simp only [hc', not_false_eq_true, if_true]
      rfl

/-- Replacing every `,` of an entry by `.` changes the outcome of
`perfdataParseValue` in one way only: the same replacement is made in the
label and the unit of the record. -/
theorem perfdataParseValue_replace (L : GoLib) (e : Str) :
    perfdataParseValue L (stringsReplace ',' '.' e) =
      (perfdataParseValue L e).map Perfdata.replaceComma := by
  unfold perfdataParseValue
  simp only [stringsSplit_replace, List.length_map, getD_map_replace, parseThreshold_replace,
    parseLabelValue_replace]
  split
  · rfl
  · split
    · rfl
    · split
      · rfl
      · split
        · rfl
        · split
          · rfl
          · rfl


theorem stringsSplit_append_sep (sep : Char) (a b : Str) (h : ∀ c ∈ a, c ≠ sep) :
    stringsSplit sep (a ++ sep :: b) = a :: stringsSplit sep b := by
  induction a with
  | nil => simp [stringsSplit]
  | cons x a ih =>
    have hx : x ≠ sep := h x (List.mem_cons_self _ _)
    have ih' := ih (fun c hc => h c (List.mem_cons_of_mem _ hc))
    simp only [List.cons_append, stringsSplit, if_neg hx]
    rw [show a.append (sep :: b) = a ++ sep :: b from rfl, ih']

theorem append_cons_inj (c : Char) (a b x y : Str) (h : a ++ c :: x = b ++ c :: y)
    (hb : c ∉ b) (hy : c ∉ y) : a = b ∧ x = y := by
  induction a generalizing b with
  | nil =>
    cases b with
    | nil => simpa using h
    | cons b0 b' =>
      simp only [List.nil_append, List.cons_append, List.cons.injEq] at h
      exact absurd (h.1 ▸ List.mem_cons_self _ _) hb
  | cons a0 a' ih =>
    cases b with
    | nil =>
      simp only [List.nil_append, List.cons_append, List.cons.injEq] at h
      obtain ⟨h1, h2⟩ := h
      exact absurd (h2 ▸ List.mem_append_right a' (List.mem_cons_self c x)) hy
    | cons b0 b' =>
      simp only [List.cons_append, List.cons.injEq] at h
      obtain ⟨h1, h2⟩ := h
      obtain ⟨h3, h4⟩ := ih b' h2 (fun hc => hb (List.mem_cons_of_mem _ hc))
      exact ⟨by rw [h1, h3], h4⟩

theorem isNumChar_ne_eq (c : Char) (h : isNumChar c = true) : c ≠ '=' := by
  intro hc
  subst hc
  revert h
  decide

theorem quotedRest_eq_some_iff (d r : Str) :
    quotedRest d = some r ↔
      ∃ q, q ≠ [] ∧ (∀ c ∈ q, c ≠ quote) ∧ d = quote :: (q ++ quote :: r) := by
  constructor
  · intro h
    match d, h with
    | c :: x :: u, h =>
      simp only [quotedRest] at h
      by_cases hc : c = quote ∧ notQuote x = true
      · rw [if_pos hc] at h
        cases hdw : u.dropWhile notQuote with
        | nil => simp [hdw] at h
        | cons y rest =>
          simp only [hdw, Option.some.injEq] at h
          subst h
          have hy : y = quote := by
            have := dropWhile_head_false notQuote u y _ hdw
            simpa [notQuote] using this
          subst hy
          refine ⟨x :: u.takeWhile notQuote, by simp, ?_, ?_⟩
          · intro a ha
            rcases List.mem_cons.1 ha with rfl | ha
            · simpa [notQuote] using hc.2
            · simpa [notQuote] using List.mem_takeWhile_imp ha
          · rw [hc.1]
            simp only [List.cons_append, ← hdw, List.takeWhile_append_dropWhile]
      · rw [if_neg hc] at h
        cases h
  · rintro ⟨q, hq, hqc, rfl⟩
    exact quotedRest_quoted q r hq hqc

/-- The label pattern matches a text whole exactly when nothing is left after
the label. -/
theorem label_whole_iff (l : Str) :
    FindStringAnchored perfdataLabelRegex l = l ↔ labelRest l = [] := by
  have hd := FindStringAnchored_label l
  constructor
  · intro h
    rw [h] at hd
    exact List.self_eq_append_right.1 hd
  · intro h
    rw [h, List.append_nil] at hd
    exact hd.symm

/-- After a text that the label pattern matches whole, an `=` ends the label. -/
theorem labelRest_append_eq (l v : Str) (h : labelRest l = []) :
    labelRest (l ++ '=' :: v) = '=' :: v := by
  have hstop : ('=' :: v).dropWhile notEqQuote = '=' :: v := by
    simp [List.dropWhile, notEqQuote]
  cases hq : quotedRest l with
  | some r =>
    obtain ⟨q, hq1, hq2, hq3⟩ := (quotedRest_eq_some_iff l r).1 hq
    have hall : ∀ c ∈ r, notEqQuote c = true := by
      simp only [labelRest, hq, Option.getD_some] at h
      exact List.dropWhile_eq_nil_iff.1 h
    have hq' : quotedRest (l ++ '=' :: v) = some (r ++ '=' :: v) := by
      rw [hq3]
      have := quotedRest_quoted q (r ++ '=' :: v) hq1 hq2
      simpa using this
    simp only [labelRest, hq', Option.getD_some]
    rw [dropWhile_append_of_all notEqQuote r _ hall, hstop]
  | none =>
    have hall : ∀ c ∈ l, notEqQuote c = true := by
      simp only [labelRest, hq, Option.getD_none] at h
      exact List.dropWhile_eq_nil_iff.1 h
    have hq' : quotedRest (l ++ '=' :: v) = none := by
      cases l with
      | nil => exact quotedRest_none_of_head '=' v (by decide)
      | cons a t =>
        have ha := hall a (List.mem_cons_self _ _)
        simp only [notEqQuote, Bool.not_eq_true', Bool.or_eq_false_iff,
          decide_eq_false_iff_not] at ha
        exact quotedRest_none_of_head a _ ha.2
    simp only [labelRest, hq', Option.getD_none]
    rw [dropWhile_append_of_all notEqQuote l _ hall, hstop]

/-- C10: `parseFloat` gives the same result on a text and on the text with
every `,` replaced by `.`; and for every label `l` (a text the label pattern
matches whole: an optional quoted segment, then characters other than `=` and
quote) that holds no `,`, every numeric value text `v` and all threshold
texts, `perfdataParseValue` gives the same outcome (equal record, or the same
error) on the entry `l=v;w;c;mn;mx` and on that entry with every `,` replaced
by `.`. -/
theorem comma_decimal_separator (L : GoLib) (s l v w c mn mx : Str)
    (hlabel : FindStringAnchored perfdataLabelRegex l = l)
    (hl : ∀ ch ∈ l, ch ≠ ',') (hv : ∀ ch ∈ v, isNumChar ch = true) :
    parseFloat L s = parseFloat L (stringsReplace ',' '.' s) ∧
    perfdataParseValue L
        (stringsReplace ',' '.'
          (l ++ '=' :: (v ++ ';' :: (w ++ ';' :: (c ++ ';' :: (mn ++ ';' :: mx)))))) =
      perfdataParseValue L
        (l ++ '=' :: (v ++ ';' :: (w ++ ';' :: (c ++ ';' :: (mn ++ ';' :: mx))))) := by
  refine ⟨(parseFloat_replace L s).symm, ?_⟩
  rw [perfdataParseValue_replace]
  cases hr : perfdataParseValue L
      (l ++ '=' :: (v ++ ';' :: (w ++ ';' :: (c ++ ';' :: (mn ++ ';' :: mx))))) with
  | error err => rfl
  | ok r =>
    have hsemi : ∀ ch ∈ l, ch ≠ ';' := by
      intro ch hch hs
      subst hs
      have hlen := (perfdataParseValue_ok_fields L _ r hr).1
      rw [stringsSplit_length] at hlen
      have hpos : 0 < l.count ';' := List.count_pos_iff.2 hch
      simp only [List.count_append, List.count_cons] at hlen
      simp at hlen
      omega
    obtain ⟨-, -, -, -, -, pd, hpd⟩ := perfdataParseValue_ok_fields L _ r hr
    have hfield : (stringsSplit ';'
        (l ++ '=' :: (v ++ ';' :: (w ++ ';' :: (c ++ ';' :: (mn ++ ';' :: mx)))))).getD 0 [] =
        l ++ '=' :: v := by
      have : l ++ '=' :: (v ++ ';' :: (w ++ ';' :: (c ++ ';' :: (mn ++ ';' :: mx)))) =
          (l ++ '=' :: v) ++ ';' :: (w ++ ';' :: (c ++ ';' :: (mn ++ ';' :: mx))) := by simp
      rw [this, stringsSplit_append_sep]
      · rfl
      · intro ch hch
        rcases List.mem_append.1 hch with hch | hch
        · exact hsemi ch hch
        · rcases List.mem_cons.1 hch with rfl | hch
          · decide
          · exact isNumChar_not_semicolon ch (hv ch hch)
    rw [hfield] at hpd
    obtain ⟨hLab, -, hrest, -, -, huom⟩ := parseLabelValue_shape L _ pd r hpd
    have hrest' := labelRest_append_eq l v ((label_whole_iff l).1 hlabel)
    have h1 : r.Label = l := by
      rw [hLab]
      exact label_of_rest _ l _ rfl hrest'
    have h2 : List.takeWhile isNumChar (labelRest (l ++ '=' :: v)).tail ++ r.UOM = v := by
      rw [hrest'] at hrest
      simp only [List.cons.injEq, true_and] at hrest
      rw [hrest']
      exact hrest.symm
    have hu : r.UOM = [] := by
      cases hu : r.UOM with
      | nil => rfl
      | cons a u =>
        exfalso
        rw [hu] at huom h2
        have hfalse := dropWhile_head_false isNumChar _ a u huom.symm
        have hmem : a ∈ v := by
          rw [← h2]
          exact List.mem_append_right _ (List.mem_cons_self _ _)
        rw [hv a hmem] at hfalse
        cases hfalse
    have hlab : stringsReplace ',' '.' r.Label = r.Label := by
      rw [h1]
      exact stringsReplace_of_no_comma l hl
    have hrc : Perfdata.replaceComma r = r := by
      cases r
      simp only at hlab hu
      simp only [Perfdata.replaceComma, hlab, hu]
      rfl
    simp only [Except.map, hrc]

theorem comma_decimal_separator_witness :
    parseFloat refLib "2,4,4".toList = parseFloat refLib (stringsReplace ',' '.' "2,4,4".toList) ∧
    perfdataParseValue refLib (stringsReplace ',' '.' "'cpu=a 1'x=0,5;7,5;10;;1,0e2".toList) =
      perfdataParseValue refLib "'cpu=a 1'x=0,5;7,5;10;;1,0e2".toList :=
  comma_decimal_separator refLib "2,4,4".toList "'cpu=a 1'x".toList "0,5".toList "7,5".toList
    "10".toList [] "1,0e2".toList (by decide) (by decide) (by decide)

/-! ## Failures of one entry -/

theorem parseThreshold_ok_of (L : GoLib) (b : Bool) (f : Str)
    (set : Perfdata L.Float64 → L.Float64 → Perfdata L.Float64) (pd : Perfdata L.Float64)
    (h : b = true → f ≠ [] → ∃ v, parseFloat L f = .ok v) :
    ∃ pd', parseThreshold L b f set pd = .ok pd' := by
  unfold parseThreshold
  by_cases hc : (b && decide (f ≠ [])) = true
  · rw [if_pos hc]
    simp only [Bool.and_eq_true, decide_eq_true_eq] at hc
    obtain ⟨v, hv⟩ := h hc.1 hc.2
    exact ⟨set pd v, by rw [hv]⟩
  · rw [if_neg hc]
    exact ⟨pd, rfl⟩

theorem parseThreshold_error_of (L : GoLib) (b : Bool) (f : Str)
    (set : Perfdata L.Float64 → L.Float64 → Perfdata L.Float64) (pd : Perfdata L.Float64)
    (err : GoError) (hb : b = true) (hf : f ≠ []) (he : parseFloat L f = .error err) :
    parseThreshold L b f set pd = .error err := by
  unfold parseThreshold
  have hc : (b && decide (f ≠ [])) = true := by simp [hb, hf]
  rw [if_pos hc, he]

theorem getElem?_of_lt_getD (data : List Str) (j : Nat) (h : j < data.length) :
    data[j]? = some (data.getD j []) := by
  simp [List.getD_eq_getElem?_getD, List.getElem?_eq_getElem h]

/-- With at most five fields and every present, non-empty threshold field
parsing, `perfdataParseValue` comes down to decoding the first field. -/
theorem perfdataParseValue_of_thresholds (L : GoLib) (e : Str)
    (hlen : (stringsSplit ';' e).length ≤ 5)
    (hthr : ∀ j g, 1 ≤ j → (stringsSplit ';' e)[j]? = some g → g ≠ [] →
      ∃ v, parseFloat L g = .ok v) :
    ∃ pd, perfdataParseValue L e = parseLabelValue L ((stringsSplit ';' e).getD 0 []) pd := by
  have hpos := stringsSplit_length ';' e
  have hok : ∀ (j : Nat) (b : Bool) set pd, 1 ≤ j → (b = true → j < (stringsSplit ';' e).length) →
      ∃ pd', parseThreshold L b ((stringsSplit ';' e).getD j []) set pd = .ok pd' := by
    intro j b set pd hj hb
    apply parseThreshold_ok_of
    intro hb' hne
    exact hthr j _ hj (getElem?_of_lt_getD _ j (hb hb')) hne
  unfold perfdataParseValue
  simp only
  rw [if_neg (by omega)]
  obtain ⟨p4, h4⟩ := hok 4 (decide ((stringsSplit ';' e).length = 5))
    (fun p v => { p with Max := v })
    { Label := [], Value := L.NaN, UOM := [], Warning := L.NaN, Critical := L.NaN,
      Min := L.NaN, Max := L.NaN } (by omega) (by simp; omega)
  obtain ⟨p3, h3⟩ := hok 3 (decide ((stringsSplit ';' e).length ≥ 4))
    (fun p v => { p with Min := v }) p4 (by omega) (by simp; omega)
  obtain ⟨p2, h2⟩ := hok 2 (decide ((stringsSplit ';' e).length ≥ 3))
    (fun p v => { p with Critical := v }) p3 (by omega) (by simp; omega)
  obtain ⟨p1, h1⟩ := hok 1 (decide ((stringsSplit ';' e).length ≥ 2))
    (fun p v => { p with Warning := v }) p2 (by omega) (by simp; omega)
  simp only [h4, h3, h2, h1]
  exact ⟨p1, rfl⟩


/-- C11: in an entry with at most five fields, let field `k` (1 to 4) be
present, not empty and fail to parse with `err`, while every present non-empty
field of higher index parses.  Then `perfdataParseValue` fails with `err`, the
number-format error of field `k`, whatever the fields of lower index hold, the
first field (label and value) included. -/
theorem perfdataParseValue_threshold_failure (L : GoLib) (e : Str) (k : Nat) (f : Str)
    (err : GoError) (hlen : (stringsSplit ';' e).length ≤ 5) (hk : 1 ≤ k)
    (hf : (stringsSplit ';' e)[k]? = some f) (hne : f ≠ [])
    (herr : parseFloat L f = .error err)
    (hhigher : ∀ j g, k < j → (stringsSplit ';' e)[j]? = some g → g ≠ [] →
      ∃ v, parseFloat L g = .ok v) :
    perfdataParseValue L e = .error err ∧
    ∃ kind, err = .NumError "ParseFloat".toList (stringsReplace ',' '.' f) kind := by
  refine ⟨?_, ?_⟩
  swap
  · obtain ⟨kd, _, hkd⟩ := parseFloat_error L f err herr
    exact ⟨kd, hkd⟩
  have hpos := stringsSplit_length ';' e
  obtain ⟨hklt, -⟩ := List.getElem?_eq_some_iff.1 hf
  have hfk : (stringsSplit ';' e).getD k [] = f := by
    simp [List.getD_eq_getElem?_getD, hf]
  have hok : ∀ (j : Nat) (b : Bool) set pd, k < j → (b = true → j < (stringsSplit ';' e).length) →
      ∃ pd', parseThreshold L b ((stringsSplit ';' e).getD j []) set pd = .ok pd' := by
    intro j b set pd hj hb
    apply parseThreshold_ok_of
    intro hb' hne'
    exact hhigher j _ hj (getElem?_of_lt_getD _ j (hb hb')) hne'
  have hfail : ∀ (b : Bool) set pd, b = true →
      parseThreshold L b ((stringsSplit ';' e).getD k []) set pd = .error err := by
    intro b set pd hb
    rw [hfk]
    exact parseThreshold_error_of L b f set pd err hb hne herr
  unfold perfdataParseValue
  simp only
  rw [if_neg (by omega)]
  have hcases : k = 1 ∨ k = 2 ∨ k = 3 ∨ k = 4 := by omega
  rcases hcases with rfl | rfl | rfl | rfl
  · obtain ⟨p4, h4⟩ := hok 4 (decide ((stringsSplit ';' e).length = 5))
      (fun p v => { p with Max := v })
      { Label := [], Value := L.NaN, UOM := [], Warning := L.NaN, Critical := L.NaN,
        Min := L.NaN, Max := L.NaN } (by omega) (by simp; omega)
    obtain ⟨p3, h3⟩ := hok 3 (decide ((stringsSplit ';' e).length ≥ 4))
      (fun p v => { p with Min := v }) p4 (by omega) (by simp; omega)
    obtain ⟨p2, h2⟩ := hok 2 (decide ((stringsSplit ';' e).length ≥ 3))
      (fun p v => { p with Critical := v }) p3 (by omega) (by simp; omega)
    have h1 := hfail (decide ((stringsSplit ';' e).length ≥ 2))
      (fun p v => { p with Warning := v }) p2 (by simp; omega)
    simp only [h4, h3, h2, h1]
  · obtain ⟨p4, h4⟩ := hok 4 (decide ((stringsSplit ';' e).length = 5))
      (fun p v => { p with Max := v })
      { Label := [], Value := L.NaN, UOM := [], Warning := L.NaN, Critical := L.NaN,
        Min := L.NaN, Max := L.NaN } (by omega) (by simp; omega)
    obtain ⟨p3, h3⟩ := hok 3 (decide ((stringsSplit ';' e).length ≥ 4))
      (fun p v => { p with Min := v }) p4 (by omega) (by simp; omega)
    have h2 := hfail (decide ((stringsSplit ';' e).length ≥ 3))
      (fun p v => { p with Critical := v }) p3 (by simp; omega)
    simp only [h4, h3, h2]
  · obtain ⟨p4, h4⟩ := hok 4 (decide ((stringsSplit ';' e).length = 5))
      (fun p v => { p with Max := v })
      { Label := [], Value := L.NaN, UOM := [], Warning := L.NaN, Critical := L.NaN,
        Min := L.NaN, Max := L.NaN } (by omega) (by simp; omega)
    have h3 := hfail (decide ((stringsSplit ';' e).length ≥ 4))
      (fun p v => { p with Min := v }) p4 (by simp; omega)
    simp only [h4, h3]
  · have h4 := hfail (decide ((stringsSplit ';' e).length = 5))
      (fun p v => { p with Max := v })
      { Label := [], Value := L.NaN, UOM := [], Warning := L.NaN, Critical := L.NaN,
        Min := L.NaN, Max := L.NaN } (by simp; omega)
    simp only [h4]

theorem perfdataParseValue_threshold_failure_witness :
    perfdataParseValue refLib "=;7,5;2,4,4;x;100".toList =
      .error (.NumError "ParseFloat".toList "x".toList .syntaxErr) ∧
    ∃ kind, GoError.NumError "ParseFloat".toList "x".toList .syntaxErr =
      .NumError "ParseFloat".toList (stringsReplace ',' '.' "x".toList) kind :=
  perfdataParseValue_threshold_failure refLib "=;7,5;2,4,4;x;100".toList 3 "x".toList
    (.NumError "ParseFloat".toList "x".toList .syntaxErr) (by decide) (by decide) (by decide)
    (by decide) (by decide)
    (fun j g hj hg _ => by
      have hlt := (List.getElem?_eq_some_iff.1 hg).1
      have h5 : (stringsSplit ';' "=;7,5;2,4,4;x;100".toList).length = 5 := by decide
      have hj4 : j = 4 := by omega
      subst hj4
      have h4 : (stringsSplit ';' "=;7,5;2,4,4;x;100".toList)[4]? = some "100".toList := by
        decide
      rw [h4] at hg
      cases hg
      exact ⟨RefFloat.num false 1 2, by decide⟩)


theorem threshold_nan_iff (L : GoLib) (data : List Str) (k : Nat) (cond : Prop) (x : L.Float64)
    (hcond : cond ↔ k < data.length)
    (hset : cond ∧ data.getD k [] ≠ [] → parseFloat L (data.getD k []) = .ok x)
    (hkeep : ¬(cond ∧ data.getD k [] ≠ []) → x = L.NaN) :
    x = L.NaN ↔
      (data[k]? = none ∨ data[k]? = some [] ∨
        ∃ f, data[k]? = some f ∧ f ≠ [] ∧ parseFloat L f = .ok L.NaN) := by
  cases hk : data[k]? with
  | none =>
    have hlt : ¬ k < data.length := by
      intro h
      rw [List.getElem?_eq_getElem h] at hk
      cases hk
    simp only [true_or, iff_true]
    exact hkeep (fun hc => hlt (hcond.1 hc.1))
  | some f =>
    have hlt : k < data.length := (List.getElem?_eq_some_iff.1 hk).1
    have hg : data.getD k [] = f := by simp [List.getD_eq_getElem?_getD, hk]
    rw [hg] at hset hkeep
    by_cases hf : f = []
    · subst hf
      simp only [or_true, true_or, iff_true]
      exact hkeep (fun hc => hc.2 rfl)
    · have hx := hset ⟨hcond.2 hlt, hf⟩
      constructor
      · intro h
        refine Or.inr (Or.inr ⟨f, rfl, hf, ?_⟩)
        rw [hx, h]
      · rintro (h | h | ⟨g, hg1, _, hg3⟩)
        · cases h
        · exact absurd (Option.some.inj h) hf
        · cases hg1
          rw [hx] at hg3
          exact Except.ok.inj hg3

/-- C12 (as amended): when `perfdataParseValue` succeeds, a threshold of the
record (index 1 Warning, 2 Critical, 3 Min, 4 Max) is NaN exactly when its
field is missing from the `;`-split, or is the empty string, or is a present
non-empty text that `parseFloat` itself converts to NaN. -/
theorem perfdataParseValue_threshold_nan_iff (L : GoLib) (e : Str) (r : Perfdata L.Float64)
    (h : perfdataParseValue L e = .ok r) :
    (r.Warning = L.NaN ↔
      ((stringsSplit ';' e)[1]? = none ∨ (stringsSplit ';' e)[1]? = some [] ∨
        ∃ f, (stringsSplit ';' e)[1]? = some f ∧ f ≠ [] ∧ parseFloat L f = .ok L.NaN)) ∧
    (r.Critical = L.NaN ↔
      ((stringsSplit ';' e)[2]? = none ∨ (stringsSplit ';' e)[2]? = some [] ∨
        ∃ f, (stringsSplit ';' e)[2]? = some f ∧ f ≠ [] ∧ parseFloat L f = .ok L.NaN)) ∧
    (r.Min = L.NaN ↔
      ((stringsSplit ';' e)[3]? = none ∨ (stringsSplit ';' e)[3]? = some [] ∨
        ∃ f, (stringsSplit ';' e)[3]? = some f ∧ f ≠ [] ∧ parseFloat L f = .ok L.NaN)) ∧
    (r.Max = L.NaN ↔
      ((stringsSplit ';' e)[4]? = none ∨ (stringsSplit ';' e)[4]? = some [] ∨
        ∃ f, (stringsSplit ';' e)[4]? = some f ∧ f ≠ [] ∧ parseFloat L f = .ok L.NaN)) := by
  obtain ⟨hlen, hMax, hMin, hCrit, hWarn, -⟩ := perfdataParseValue_ok_fields L e r h
  exact ⟨threshold_nan_iff L _ 1 _ _ (by omega) hWarn.1 hWarn.2,
    threshold_nan_iff L _ 2 _ _ (by omega) hCrit.1 hCrit.2,
    threshold_nan_iff L _ 3 _ _ (by omega) hMin.1 hMin.2,
    threshold_nan_iff L _ 4 _ _ (by omega) hMax.1 hMax.2⟩

theorem perfdataParseValue_threshold_nan_iff_witness :
    (RefFloat.nan = refLib.NaN ↔
      ((stringsSplit ';' "users=1;NaN;;7".toList)[1]? = none ∨
        (stringsSplit ';' "users=1;NaN;;7".toList)[1]? = some [] ∨
        ∃ f, (stringsSplit ';' "users=1;NaN;;7".toList)[1]? = some f ∧ f ≠ [] ∧
          parseFloat refLib f = .ok refLib.NaN)) ∧
    (RefFloat.num false 7 0 = refLib.NaN ↔
      ((stringsSplit ';' "users=1;NaN;;7".toList)[3]? = none ∨
        (stringsSplit ';' "users=1;NaN;;7".toList)[3]? = some [] ∨
        ∃ f, (stringsSplit ';' "users=1;NaN;;7".toList)[3]? = some f ∧ f ≠ [] ∧
          parseFloat refLib f = .ok refLib.NaN)) :=
  have h := perfdataParseValue_threshold_nan_iff refLib "users=1;NaN;;7".toList
    { Label := "users".toList, Value := RefFloat.num false 1 0, UOM := [],
      Min := RefFloat.num false 7 0, Max := RefFloat.nan, Warning := RefFloat.nan,
      Critical := RefFloat.nan }
    (by decide)
  ⟨h.1, h.2.2.1⟩

/-- C12 as stated fails: the entry `users=1;NaN` decodes, its warning field is
present and not empty, and the warning threshold of the record is NaN, because
`strconv.ParseFloat` converts the text `NaN` to NaN. -/
theorem perfdataParseValue_threshold_nan_counterexample :
    perfdataParseValue refLib "users=1;NaN".toList =
      .ok { Label := "users".toList, Value := RefFloat.num false 1 0, UOM := [],
            Min := RefFloat.nan, Max := RefFloat.nan, Warning := RefFloat.nan,
            Critical := RefFloat.nan } ∧
    (stringsSplit ';' "users=1;NaN".toList)[1]? = some "NaN".toList ∧
    ¬ ((RefFloat.nan = refLib.NaN) ↔
      ((stringsSplit ';' "users=1;NaN".toList)[1]? = none ∨
        (stringsSplit ';' "users=1;NaN".toList)[1]? = some [])) := by
  decide


theorem label_eq_nil_iff (d : Str) :
    FindStringAnchored perfdataLabelRegex d = [] ↔
      (d = [] ∨ (∃ t, d = '=' :: t) ∨
        (∃ t, d = quote :: t ∧
          ¬ ∃ q rest, q ≠ [] ∧ (∀ c ∈ q, c ≠ quote) ∧ t = q ++ quote :: rest)) := by
  have hd := FindStringAnchored_label d
  have hnil : FindStringAnchored perfdataLabelRegex d = [] ↔ (labelRest d).length = d.length := by
    constructor
    · intro h
      rw [h] at hd
      simp only [List.nil_append] at hd
      rw [← hd]
    · intro h
      have := congrArg List.length hd
      simp only [List.length_append] at this
      exact List.length_eq_zero.1 (by omega)
  rw [hnil]
  cases hq : quotedRest d with
  | some r =>
    have hlt := (quotedRest_some d r hq).2
    obtain ⟨q, hq1, hq2, hq3⟩ := (quotedRest_eq_some_iff d r).1 hq
    have hle : (labelRest d).length ≤ r.length := by
      simp only [labelRest, hq, Option.getD_some]
      exact (List.dropWhile_sublist notEqQuote).length_le
    constructor
    · intro h
      omega
    · rintro (h | ⟨t, h⟩ | ⟨t, h, hno⟩)
      · subst h
        simp [quotedRest] at hq
      · rw [hq3] at h
        simp only [List.cons.injEq] at h
        exact absurd h.1 (by decide)
      · exfalso
        apply hno
        rw [hq3] at h
        simp only [List.cons.injEq, true_and] at h
        exact ⟨q, r, hq1, hq2, h.symm⟩
  | none =>
    simp only [labelRest, hq, Option.getD_none]
    cases d with
    | nil => simp
    | cons c t =>
      by_cases hc : notEqQuote c = true
      · have hlt : ((c :: t).dropWhile notEqQuote).length < (c :: t).length :=
          length_dropWhile_lt notEqQuote (c :: t) (by simp [List.takeWhile, hc])
        have hc' : c ≠ '=' ∧ c ≠ quote := by
          simpa [notEqQuote] using hc
        constructor
        · intro h
          omega
        · rintro (h | ⟨t', h⟩ | ⟨t', h, _⟩)
          · cases h
          · simp only [List.cons.injEq] at h
            exact absurd h.1 hc'.1
          · simp only [List.cons.injEq] at h
            exact absurd h.1 hc'.2
      · have hdw : (c :: t).dropWhile notEqQuote = c :: t := by
          simp [List.dropWhile, hc]
        rw [hdw]
        simp only [true_iff]
        have hc' : c = '=' ∨ c = quote := by
          by_contra hcon
          push_neg at hcon
          exact hc (by simp [notEqQuote, hcon.1, hcon.2])
        rcases hc' with rfl | rfl
        · exact Or.inr (Or.inl ⟨t, rfl⟩)
        · refine Or.inr (Or.inr ⟨t, rfl, ?_⟩)
          rintro ⟨q, rest, hq1, hq2, rfl⟩
          rw [quotedRest_quoted q rest hq1 hq2] at hq
          cases hq

theorem parseFloat_result_ne (L : GoLib) (x : Str) (msg : Str)
    (k : L.Float64 → Perfdata L.Float64) :
    (match parseFloat L x with
      | .error err => (Except.error err : Except GoError (Perfdata L.Float64))
      | .ok v => .ok (k v)) ≠ .error (.errorString msg) := by
  cases hv : parseFloat L x with
  | error err =>
    obtain ⟨kd, _, hkd⟩ := parseFloat_error L x err hv
    subst hkd
    simp
  | ok v => simp

theorem error_msg_ne {α : Type} (m1 m2 : Str) (h : m1 ≠ m2) :
    (Except.error (GoError.errorString m1) : Except GoError α) ≠
      .error (GoError.errorString m2) := by
  intro hh
  injection hh with h1
  injection h1 with h2
  exact h h2

theorem parseLabelValue_invalid_label_iff (L : GoLib) (d : Str) (pd : Perfdata L.Float64) :
    parseLabelValue L d pd = .error (.errorString "invalid label".toList) ↔
      FindStringAnchored perfdataLabelRegex d = [] := by
  rw [parseLabelValue_eq]
  by_cases h1 : FindStringAnchored perfdataLabelRegex d = []
  · simp [h1]
  · rw [if_neg h1]
    simp only [h1, iff_false]
    cases labelRest d with
    | nil => exact error_msg_ne _ _ (by decide)
    | cons c vu =>
      simp only
      by_cases hc : c ≠ '='
      · rw [if_pos hc]
        exact error_msg_ne _ _ (by decide)
      · rw [if_neg hc]
        by_cases hraw : vu.takeWhile isNumChar = []
        · rw [if_pos hraw]
          exact error_msg_ne _ _ (by decide)
        · rw [if_neg hraw]
          exact parseFloat_result_ne L _ _ _

/-- C13: in an entry with at most five fields whose present non-empty threshold
fields all parse, `perfdataParseValue` fails with the error `invalid label`
exactly when the label extracted from the first field `d` is empty; and the
extracted label is empty exactly when `d` is the empty string, or begins with
`=`, or begins with a quote that opens no well-formed quoted segment (a quote,
one or more characters other than a quote, a closing quote). -/
theorem perfdataParseValue_invalid_label_iff (L : GoLib) (e d : Str)
    (hlen : (stringsSplit ';' e).length ≤ 5)
    (hthr : ∀ j g, 1 ≤ j → (stringsSplit ';' e)[j]? = some g → g ≠ [] →
      ∃ v, parseFloat L g = .ok v)
    (hd : (stringsSplit ';' e)[0]? = some d) :
    (perfdataParseValue L e = .error (.errorString "invalid label".toList) ↔
      FindStringAnchored perfdataLabelRegex d = []) ∧
    (FindStringAnchored perfdataLabelRegex d = [] ↔
      (d = [] ∨ (∃ t, d = '=' :: t) ∨
        (∃ t, d = quote :: t ∧
          ¬ ∃ q rest, q ≠ [] ∧ (∀ c ∈ q, c ≠ quote) ∧ t = q ++ quote :: rest))) := by
  obtain ⟨pd, hpd⟩ := perfdataParseValue_of_thresholds L e hlen hthr
  have hd' : (stringsSplit ';' e).getD 0 [] = d := by
    simp [List.getD_eq_getElem?_getD, hd]
  rw [hd'] at hpd
  rw [hpd]
  exact ⟨parseLabelValue_invalid_label_iff L d pd, label_eq_nil_iff d⟩


theorem thresholds_parse_of_tail (L : GoLib) (data : List Str)
    (h : ∀ g ∈ data.tail, g ≠ [] → (parseFloat L g).isOk = true) :
    ∀ j g, 1 ≤ j → data[j]? = some g → g ≠ [] → ∃ v, parseFloat L g = .ok v := by
  intro j g hj hg hne
  have hmem : g ∈ data.tail := by
    cases data with
    | nil => simp at hg
    | cons a t =>
      cases j with
      | zero => omega
      | succ i =>
        simp only [List.getElem?_cons_succ] at hg
        exact List.getElem?_mem hg
  have := h g hmem hne
  cases hv : parseFloat L g with
  | error err => simp [hv, Except.isOk, Except.toBool] at this
  | ok v => exact ⟨v, rfl⟩

theorem perfdataParseValue_invalid_label_iff_witness :
    (perfdataParseValue refLib "'users=2;3;7".toList = .error (.errorString "invalid label".toList) ↔
      FindStringAnchored perfdataLabelRegex "'users=2".toList = []) ∧
    (FindStringAnchored perfdataLabelRegex "'users=2".toList = [] ↔
      ("'users=2".toList = [] ∨ (∃ t, "'users=2".toList = '=' :: t) ∨
        (∃ t, "'users=2".toList = quote :: t ∧
          ¬ ∃ q rest, q ≠ [] ∧ (∀ c ∈ q, c ≠ quote) ∧ t = q ++ quote :: rest))) :=
  perfdataParseValue_invalid_label_iff refLib "'users=2;3;7".toList "'users=2".toList
    (by decide) (thresholds_parse_of_tail refLib _ (by decide)) (by decide)


theorem labelRest_eq_drop (d : Str) :
    labelRest d = d.drop (FindStringAnchored perfdataLabelRegex d).length := by
  have aux : ∀ lab rest : Str, d = lab ++ rest → rest = d.drop lab.length := by
    intro lab rest h
    subst h
    simp
  exact aux _ _ (FindStringAnchored_label d)

theorem labelRest_head (d : Str) (c : Char) (vu : Str) (h : labelRest d = c :: vu) :
    c = '=' ∨ c = quote := by
  have hf : notEqQuote c = false := by
    unfold labelRest at h
    exact dropWhile_head_false notEqQuote _ c vu h
  by_contra hcon
  push_neg at hcon
  simp [notEqQuote, hcon.1, hcon.2] at hf

theorem first_field_getD (e d : Str) (hd : (stringsSplit ';' e)[0]? = some d) :
    (stringsSplit ';' e).getD 0 [] = d := by
  simp [List.getD_eq_getElem?_getD, hd]

/-- C14 (as amended): in an entry with at most five fields whose present
non-empty threshold fields all parse and whose extracted label is not empty,
if the first field holds no `=` at all and no quote after the extracted label,
`perfdataParseValue` fails with the error `no value found`. -/
theorem perfdataParseValue_no_value (L : GoLib) (e d : Str)
    (hlen : (stringsSplit ';' e).length ≤ 5)
    (hthr : ∀ j g, 1 ≤ j → (stringsSplit ';' e)[j]? = some g → g ≠ [] →
      ∃ v, parseFloat L g = .ok v)
    (hd : (stringsSplit ';' e)[0]? = some d)
    (hlab : FindStringAnchored perfdataLabelRegex d ≠ [])
    (hno : ∀ c ∈ d, c ≠ '=')
    (hq : ∀ c ∈ d.drop (FindStringAnchored perfdataLabelRegex d).length, c ≠ quote) :
    perfdataParseValue L e = .error (.errorString "no value found".toList) := by
  obtain ⟨pd, hpd⟩ := perfdataParseValue_of_thresholds L e hlen hthr
  rw [first_field_getD e d hd] at hpd
  rw [hpd, parseLabelValue_eq, if_neg hlab]
  cases hrest : labelRest d with
  | nil => rfl
  | cons c vu =>
    exfalso
    have hmem : c ∈ d.drop (FindStringAnchored perfdataLabelRegex d).length := by
      rw [← labelRest_eq_drop, hrest]
      exact List.mem_cons_self _ _
    rcases labelRest_head d c vu hrest with rfl | rfl
    · exact hno _ (List.mem_of_mem_drop hmem) rfl
    · exact hq _ hmem rfl

theorem perfdataParseValue_no_value_witness :
    perfdataParseValue refLib "'disk /'used2%;3;7;0".toList =
      .error (.errorString "no value found".toList) :=
  perfdataParseValue_no_value refLib "'disk /'used2%;3;7;0".toList "'disk /'used2%".toList
    (by decide) (thresholds_parse_of_tail refLib _ (by decide)) (by decide) (by decide)
    (by decide) (by decide)

/-- C14 as stated fails: the entry `users'2` has one field, which holds no `=`,
and its extracted label `users` is not empty, yet `perfdataParseValue` fails
with `invalid format`, not with `no value found`: the label ends at the quote,
and the character after the label is not `=`. -/
theorem perfdataParseValue_no_value_counterexample :
    (stringsSplit ';' "users'2".toList) = ["users'2".toList] ∧
    FindStringAnchored perfdataLabelRegex "users'2".toList = "users".toList ∧
    (∀ c ∈ "users'2".toList, c ≠ '=') ∧
    perfdataParseValue refLib "users'2".toList =
      .error (.errorString "invalid format".toList) ∧
    perfdataParseValue refLib "users'2".toList ≠
      .error (.errorString "no value found".toList) := by
  decide

/-- C15: in an entry with at most five fields whose present non-empty threshold
fields all parse and whose first field is `lab ++ "=" ++ vu` with `lab` the
extracted label, not empty, `perfdataParseValue` fails with the error
`missing number` exactly when `vu` is empty or begins with a character that is
none of the digits, `.` and `,`. -/
theorem perfdataParseValue_missing_number_iff (L : GoLib) (e lab vu : Str)
    (hlen : (stringsSplit ';' e).length ≤ 5)
    (hthr : ∀ j g, 1 ≤ j → (stringsSplit ';' e)[j]? = some g → g ≠ [] →
      ∃ v, parseFloat L g = .ok v)
    (hd : (stringsSplit ';' e)[0]? = some (lab ++ '=' :: vu))
    (hlab : FindStringAnchored perfdataLabelRegex (lab ++ '=' :: vu) = lab)
    (hne : lab ≠ []) :
    perfdataParseValue L e = .error (.errorString "missing number".toList) ↔
      (vu = [] ∨ ∃ c u, vu = c :: u ∧ isNumChar c = false) := by
  obtain ⟨pd, hpd⟩ := perfdataParseValue_of_thresholds L e hlen hthr
  rw [first_field_getD e _ hd] at hpd
  have hrest : labelRest (lab ++ '=' :: vu) = '=' :: vu := by
    have h := FindStringAnchored_label (lab ++ '=' :: vu)
    rw [hlab] at h
    exact (List.append_cancel_left h).symm
  rw [hpd, parseLabelValue_eq, hlab, if_neg hne, hrest]
  simp only [ne_eq, not_true_eq_false, if_false]
  cases vu with
  | nil => simp
  | cons c u =>
    by_cases hc : isNumChar c = true
    · have htw : (c :: u).takeWhile isNumChar ≠ [] := by simp [List.takeWhile, hc]
      rw [if_neg htw]
      constructor
      · intro h
        exact absurd h (parseFloat_result_ne L _ _ _)
      · rintro (h | ⟨c', u', h, hc'⟩)
        · cases h
        · simp only [List.cons.injEq] at h
          rw [← h.1, hc] at hc'
          cases hc'
    · have hc' : isNumChar c = false := by simpa using hc
      have htw : (c :: u).takeWhile isNumChar = [] := by simp [List.takeWhile, hc']
      rw [if_pos htw]
      simp only [true_iff]
      exact Or.inr ⟨c, u, rfl, hc'⟩

theorem perfdataParseValue_missing_number_iff_witness :
    perfdataParseValue refLib "users=-2;-3".toList =
        .error (.errorString "missing number".toList) ↔
      ("-2".toList = [] ∨ ∃ c u, "-2".toList = c :: u ∧ isNumChar c = false) :=
  perfdataParseValue_missing_number_iff refLib "users=-2;-3".toList "users".toList "-2".toList
    (by decide) (thresholds_parse_of_tail refLib _ (by decide)) (by decide) (by decide)
    (by decide)

/-- C16 (as amended): in an entry with at most five fields whose present
non-empty threshold fields all parse, if the first field is a well-formed
quoted segment `'q'`, then a run `m` (possibly empty) of characters other than
`=` and quote, then a quote, `perfdataParseValue` fails with the error
`invalid format`. -/
theorem perfdataParseValue_invalid_format (L : GoLib) (e q m rest : Str)
    (hlen : (stringsSplit ';' e).length ≤ 5)
    (hthr : ∀ j g, 1 ≤ j → (stringsSplit ';' e)[j]? = some g → g ≠ [] →
      ∃ v, parseFloat L g = .ok v)
    (hd : (stringsSplit ';' e)[0]? = some (quote :: (q ++ quote :: (m ++ quote :: rest))))
    (hq : q ≠ []) (hqc : ∀ c ∈ q, c ≠ quote)
    (hm : ∀ c ∈ m, c ≠ '=' ∧ c ≠ quote) :
    perfdataParseValue L e = .error (.errorString "invalid format".toList) := by
  obtain ⟨pd, hpd⟩ := perfdataParseValue_of_thresholds L e hlen hthr
  rw [first_field_getD e _ hd] at hpd
  have hqr := quotedRest_quoted q (m ++ quote :: rest) hq hqc
  have hrest : labelRest (quote :: (q ++ quote :: (m ++ quote :: rest))) = quote :: rest := by
    simp only [labelRest, hqr, Option.getD_some]
    rw [dropWhile_append_of_all notEqQuote m _
      (fun c hc => by simp [notEqQuote, (hm c hc).1, (hm c hc).2])]
    simp [List.dropWhile, notEqQuote]
  have hlabel : FindStringAnchored perfdataLabelRegex
      (quote :: (q ++ quote :: (m ++ quote :: rest))) = quote :: (q ++ quote :: m) :=
    label_of_rest _ _ _ (by simp) hrest
  rw [hpd, parseLabelValue_eq, hlabel, if_neg (by simp), hrest]
  simp only
  rw [if_pos (by decide)]

theorem perfdataParseValue_invalid_format_witness :
    perfdataParseValue refLib "'a b'c'=2;3".toList =
      .error (.errorString "invalid format".toList) :=
  perfdataParseValue_invalid_format refLib "'a b'c'=2;3".toList "a b".toList "c".toList
    "=2".toList (by decide) (thresholds_parse_of_tail refLib _ (by decide)) (by decide)
    (by decide) (by decide) (by decide)

/-- C16 as stated fails: in the entry `'a'b=1` the closing quote of the
well-formed quoted label is followed by `b`, which is not `=`, yet
`perfdataParseValue` succeeds, with label `'a'b`: the characters other than
`=` and quote that follow the quoted segment belong to the label. -/
theorem perfdataParseValue_invalid_format_counterexample :
    (stringsSplit ';' "'a'b=1".toList) = [quote :: ("a".toList ++ quote :: 'b' :: "=1".toList)] ∧
    perfdataParseValue refLib "'a'b=1".toList =
      .ok { Label := "'a'b".toList, Value := RefFloat.num false 1 0, UOM := [],
            Min := RefFloat.nan, Max := RefFloat.nan, Warning := RefFloat.nan,
            Critical := RefFloat.nan } ∧
    perfdataParseValue refLib "'a'b=1".toList ≠
      .error (.errorString "invalid format".toList) := by
  decide


/-! ## A value with two separators -/

theorem readDigits_two_dots (t : Str) (sawdot sawdigits : Bool) (m frac : Nat)
    (hc : ∀ c ∈ t, isDigit c = true ∨ c = '.')
    (hdots : (if sawdot then 1 else 2) ≤ t.count '.') :
    readDigits t sawdot sawdigits m frac = none := by
  induction t generalizing sawdot sawdigits m frac with
  | nil =>
    cases sawdot <;> simp at hdots
  | cons c t ih =>
    have hct : ∀ a ∈ t, isDigit a = true ∨ a = '.' :=
      fun a ha => hc a (List.mem_cons_of_mem _ ha)
    by_cases hdot : c = '.'
    · subst hdot
      cases sawdot with
      | true => simp [readDigits]
      | false =>
        simp only [readDigits, if_true]
        apply ih _ _ _ _ hct
        simp only [List.count_cons_self] at hdots
        simp only [if_true]
        simp only [Bool.false_eq_true, if_false] at hdots
        omega
    · have hdig : isDigit c = true := by
        rcases hc c (List.mem_cons_self _ _) with h | h
        · exact h
        · exact absurd h hdot
      simp only [readDigits, if_neg hdot, hdig, if_true]
      apply ih _ _ _ _ hct
      have hne : ¬ (c == '.') = true := by simpa using hdot
      rw [List.count_cons, if_neg hne] at hdots
      simpa using hdots

theorem special_none_of_dot (s : Str) (h : '.' ∈ s) : special s = none := by
  have hmem : '.' ∈ s.map Char.toLower := List.mem_map.2 ⟨'.', h, by decide⟩
  have hne : ∀ lit : Str, '.' ∉ lit → s.map Char.toLower ≠ lit := by
    intro lit hl heq
    rw [heq] at hmem
    exact hl hmem
  unfold special
  simp only [hne "nan".toList (by decide), hne "inf".toList (by decide),
    hne "+inf".toList (by decide), hne "infinity".toList (by decide),
    hne "+infinity".toList (by decide), hne "-inf".toList (by decide),
    hne "-infinity".toList (by decide), or_self, if_false]

/-- The concrete library rejects, as `strconv.ParseFloat` does, a text of
digits and `.` with two or more `.`. -/
theorem refAtof64_two_dots (t : Str) (hc : ∀ c ∈ t, isDigit c = true ∨ c = '.')
    (hdots : 2 ≤ t.count '.') : refAtof64 t = .error .syntaxErr := by
  have hdot : '.' ∈ t := List.count_pos_iff.1 (by omega)
  have hsign : ∀ a : Char, isDigit a = false → a ≠ '.' → t.head? ≠ some a := by
    intro a ha1 ha2 hh
    have hmem : a ∈ t := List.mem_of_mem_head? hh
    rcases hc a hmem with h | h
    · rw [ha1] at h
      cases h
    · exact ha2 h
  have hplus := hsign '+' (by decide) (by decide)
  have hminus := hsign '-' (by decide) (by decide)
  unfold refAtof64
  simp only [special_none_of_dot t hdot, hplus, hminus, or_self, if_false]
  rw [readDigits_two_dots t false false 0 0 hc (by simpa using hdots)]

theorem count_dot_replace (s : Str) :
    (stringsReplace ',' '.' s).count '.' = s.countP (fun c => decide (c = '.' ∨ c = ',')) := by
  induction s with
  | nil => rfl
  | cons a s ih =>
    simp only [stringsReplace, List.map_cons] at ih ⊢
    by_cases h1 : a = ','
    · subst h1
      simp [List.count_cons, List.countP_cons, ih]
    · by_cases h2 : a = '.'
      · subst h2
        simp [List.count_cons, List.countP_cons, ih]
      · simp [List.count_cons, List.countP_cons, ih, h1, h2]

theorem replace_numeric (s : Str) (h : ∀ c ∈ s, isNumChar c = true) :
    ∀ c ∈ stringsReplace ',' '.' s, isDigit c = true ∨ c = '.' := by
  intro c hc
  simp only [stringsReplace, List.mem_map] at hc
  obtain ⟨a, ha, rfl⟩ := hc
  have := h a ha
  simp only [isNumChar, Bool.or_eq_true, decide_eq_true_eq] at this
  by_cases h1 : a = ','
  · simp [h1]
  · rcases this with (hd | hd) | hd
    · simp [h1, hd]
    · simp [hd]
    · exact absurd hd h1


/-- C17: let the library reject as invalid syntax, as `strconv.ParseFloat`
does, every text of digits and `.` with two or more `.`.  In an entry with at
most five fields whose present non-empty threshold fields all parse and whose
first field is `lab ++ "=" ++ vu` with `lab` the extracted label, not empty,
if the leading run of digits, `.` and `,` of `vu` holds two or more `.` or `,`,
then `perfdataParseValue` fails with the number-format error of the value: the
`*NumError` of `ParseFloat` for the run with every `,` replaced by `.`, whose
message quotes that text. -/
theorem perfdataParseValue_value_two_separators (L : GoLib) (e lab vu : Str)
    (hlib : ∀ t : Str, (∀ c ∈ t, isDigit c = true ∨ c = '.') → 2 ≤ t.count '.' →
      L.atof64 t = .error .syntaxErr)
    (hlen : (stringsSplit ';' e).length ≤ 5)
    (hthr : ∀ j g, 1 ≤ j → (stringsSplit ';' e)[j]? = some g → g ≠ [] →
      ∃ v, parseFloat L g = .ok v)
    (hd : (stringsSplit ';' e)[0]? = some (lab ++ '=' :: vu))
    (hlab : FindStringAnchored perfdataLabelRegex (lab ++ '=' :: vu) = lab)
    (hne : lab ≠ [])
    (hsep : 2 ≤ (vu.takeWhile isNumChar).countP (fun c => decide (c = '.' ∨ c = ','))) :
    perfdataParseValue L e =
      .error (.NumError "ParseFloat".toList
        (stringsReplace ',' '.' (vu.takeWhile isNumChar)) .syntaxErr) ∧
    GoError.Error L (.NumError "ParseFloat".toList
        (stringsReplace ',' '.' (vu.takeWhile isNumChar)) .syntaxErr) =
      "strconv.ParseFloat: parsing ".toList ++
        (L.Quote (stringsReplace ',' '.' (vu.takeWhile isNumChar)) ++
          ": invalid syntax".toList) := by
  refine ⟨?_, ?_⟩
  · obtain ⟨pd, hpd⟩ := perfdataParseValue_of_thresholds L e hlen hthr
    rw [first_field_getD e _ hd] at hpd
    have hrest : labelRest (lab ++ '=' :: vu) = '=' :: vu := by
      have h := FindStringAnchored_label (lab ++ '=' :: vu)
      rw [hlab] at h
      exact (List.append_cancel_left h).symm
    have hraw : vu.takeWhile isNumChar ≠ [] := by
      intro h
      rw [h] at hsep
      simp at hsep
    have hpf : parseFloat L (vu.takeWhile isNumChar) =
        .error (.NumError "ParseFloat".toList
          (stringsReplace ',' '.' (vu.takeWhile isNumChar)) .syntaxErr) := by
      unfold parseFloat GoLib.ParseFloat
      rw [hlib _ (replace_numeric _ (fun c hc => List.mem_takeWhile_imp hc))
        (by rw [count_dot_replace]; exact hsep)]
    rw [hpd, parseLabelValue_eq, hlab, if_neg hne, hrest]
    simp only [ne_eq, not_true_eq_false, if_false]
    rw [if_neg hraw, hpf]
  · simp only [GoError.Error, NumErrKind.text, List.append_assoc]
    rfl

theorem perfdataParseValue_value_two_separators_witness :
    perfdataParseValue refLib "users=2,4.5%;3".toList =
      .error (.NumError "ParseFloat".toList
        (stringsReplace ',' '.' ("2,4.5%".toList.takeWhile isNumChar)) .syntaxErr) ∧
    GoError.Error refLib (.NumError "ParseFloat".toList
        (stringsReplace ',' '.' ("2,4.5%".toList.takeWhile isNumChar)) .syntaxErr) =
      "strconv.ParseFloat: parsing ".toList ++
        (refLib.Quote (stringsReplace ',' '.' ("2,4.5%".toList.takeWhile isNumChar)) ++
          ": invalid syntax".toList) :=
  perfdataParseValue_value_two_separators refLib "users=2,4.5%;3".toList "users".toList
    "2,4.5%".toList refAtof64_two_dots (by decide)
    (thresholds_parse_of_tail refLib _ (by decide)) (by decide) (by decide) (by decide)
    (by decide)


/-! ## The tokens of an input -/

/-- C18 (as amended): for `q` not empty and without quote (white space is
allowed in it) and `r` a run of characters that are not white space, the
tokenizer returns the whole input `'q'r` as its one token, provided `r` is not
empty or `q` holds no white space. -/
theorem FindAllString_quoted_token (q r : Str) (hq : q ≠ []) (hqc : ∀ c ∈ q, c ≠ quote)
    (hr : ∀ c ∈ r, isSpace c = false) (h : r ≠ [] ∨ ∀ c ∈ q, isSpace c = false) :
    FindAllString perfdataSplitRegex (quote :: (q ++ quote :: r)) =
      [quote :: (q ++ quote :: r)] := by
  have hrn : ∀ c ∈ r, notSpace c = true := fun c hc => by simp [notSpace, hr c hc]
  have hqr := quotedRest_quoted q r hq hqc
  apply findAll_single _ (by simp)
  apply matchAt_whole
  have hh := split_run_head (quote :: (q ++ quote :: r))
  rw [hqr] at hh
  simp only [takeWhile_eq_self notSpace r hrn, dropWhile_eq_nil notSpace r hrn] at hh
  by_cases hre : r = []
  · rw [if_pos hre] at hh
    have hqs : ∀ c ∈ q, isSpace c = false := by
      rcases h with h | h
      · exact absurd hre h
      · exact h
    have hall : ∀ c ∈ quote :: (q ++ quote :: r), notSpace c = true := by
      intro c hc
      rcases List.mem_cons.1 hc with rfl | hc
      · exact notSpace_quote
      rcases List.mem_append.1 hc with hc | hc
      · simp [notSpace, hqs c hc]
      rcases List.mem_cons.1 hc with rfl | hc
      · exact notSpace_quote
      · exact hrn c hc
    rw [plus_run_head, takeWhile_eq_self notSpace _ hall, if_neg (by simp),
      dropWhile_eq_nil notSpace _ hall] at hh
    exact hh
  · rw [if_neg hre] at hh
    exact hh

theorem FindAllString_quoted_token_witness :
    FindAllString perfdataSplitRegex "'disk /var tmp'=2%;3".toList =
      ["'disk /var tmp'=2%;3".toList] ∧
    FindAllString perfdataSplitRegex "'users'".toList = ["'users'".toList] :=
  ⟨FindAllString_quoted_token "disk /var tmp".toList "=2%;3".toList (by decide) (by decide)
      (by decide) (Or.inl (by decide)),
    FindAllString_quoted_token "users".toList [] (by decide) (by decide) (by decide)
      (Or.inr (by decide))⟩

/-- C18 as stated fails: with `q = "a b"`, not empty and without quote, and `r`
empty, the input `'a b'` gives the two tokens `'a` and `b'`: the pattern needs
at least one character that is not white space after the closing quote, and
without one it matches as a plain run of such characters. -/
theorem FindAllString_quoted_token_counterexample :
    "a b".toList ≠ [] ∧ (∀ c ∈ "a b".toList, c ≠ quote) ∧
    (∀ c ∈ ([] : Str), isSpace c = false) ∧
    FindAllString perfdataSplitRegex (quote :: ("a b".toList ++ quote :: [])) =
      ["'a".toList, "b'".toList] ∧
    FindAllString perfdataSplitRegex (quote :: ("a b".toList ++ quote :: [])) ≠
      [quote :: ("a b".toList ++ quote :: [])] := by
  decide


theorem getLast?_of_ne_nil (l : Str) (h : l ≠ []) : ∃ c, l.getLast? = some c := by
  cases hl : l.getLast? with
  | none => exact absurd (List.getLast?_eq_none_iff.1 hl) h
  | some c => exact ⟨c, rfl⟩

/-- The match of the tokenizer pattern at a position where the text starts
with a character that is not white space: it is not empty, begins and ends
with such a character, and what follows it is empty or starts with white
space. -/
theorem split_matchAt_token (s : Str) (h : s.takeWhile notSpace ≠ []) :
    ∃ m rest, perfdataSplitRegex.matchAt s = some (m, rest) ∧ m ≠ [] ∧ s = m ++ rest ∧
      (∃ c, m.head? = some c ∧ isSpace c = false) ∧
      (∃ c, m.getLast? = some c ∧ isSpace c = false) ∧
      (rest = [] ∨ ∃ c u, rest = c :: u ∧ isSpace c = true) := by
  obtain ⟨m, rest, hm, hne, hs⟩ := split_matchAt_some s h
  have hhead := (matchAt_split _ s m rest hm).2
  -- the match ends with the longest run of characters that are not white space
  have hX : ∃ pre X, s = pre ++ X ∧ X.takeWhile notSpace ≠ [] ∧ rest = X.dropWhile notSpace := by
    rw [split_run_head] at hhead
    cases hq : quotedRest s with
    | none =>
      simp only [hq, plus_run_head, h, if_false, Option.some.injEq] at hhead
      exact ⟨[], s, rfl, h, hhead.symm⟩
    | some r =>
      simp only [hq, plus_run_head, h, if_false] at hhead
      by_cases hr : r.takeWhile notSpace = []
      · rw [if_pos hr] at hhead
        exact ⟨[], s, rfl, h, (Option.some.inj hhead).symm⟩
      · rw [if_neg hr] at hhead
        obtain ⟨q, _, _, hq3⟩ := (quotedRest_eq_some_iff s r).1 hq
        exact ⟨quote :: (q ++ [quote]), r, by rw [hq3]; simp, hr,
          (Option.some.inj hhead).symm⟩
  obtain ⟨pre, X, hsX, hXt, hrest⟩ := hX
  have hm' : m = pre ++ X.takeWhile notSpace := by
    have : m ++ rest = (pre ++ X.takeWhile notSpace) ++ rest := by
      rw [← hs, hrest, List.append_assoc, List.takeWhile_append_dropWhile, hsX]
    exact List.append_cancel_right this
  refine ⟨m, rest, hm, hne, hs, ?_, ?_, ?_⟩
  · cases m with
    | nil => exact absurd rfl hne
    | cons c m' =>
      refine ⟨c, rfl, ?_⟩
      rw [hs] at h
      simp only [List.cons_append, List.takeWhile] at h
      cases hc : notSpace c with
      | true => simpa [notSpace] using hc
      | false => simp [hc] at h
  · obtain ⟨c, hc⟩ := getLast?_of_ne_nil _ hXt
    refine ⟨c, ?_, ?_⟩
    · rw [hm', List.getLast?_append, hc]
      rfl
    · have := List.mem_takeWhile_imp (List.mem_of_getLast?_eq_some hc)
      simpa [notSpace] using this
  · cases hr : rest with
    | nil => exact Or.inl rfl
    | cons c u =>
      refine Or.inr ⟨c, u, rfl, ?_⟩
      rw [hr] at hrest
      have := dropWhile_head_false notSpace X c u hrest.symm
      simpa [notSpace] using this

theorem findAllAux_weave (n : Nat) (b : Bool) (s : Str) (hn : s.length < n) :
    ∃ (w0 : Str) (gaps : List Str),
      gaps.length = (findAllAux perfdataSplitRegex n b s).length ∧
      s = w0 ++ weave (findAllAux perfdataSplitRegex n b s) gaps ∧
      (∀ c ∈ w0, isSpace c = true) ∧
      (∀ g ∈ gaps, ∀ c ∈ g, isSpace c = true) ∧
      (∀ i : Nat, i + 1 < gaps.length → gaps[i]? ≠ some []) ∧
      (∀ t ∈ findAllAux perfdataSplitRegex n b s,
        t ≠ [] ∧ (∃ c, t.head? = some c ∧ isSpace c = false) ∧
          (∃ c, t.getLast? = some c ∧ isSpace c = false)) := by
  induction n generalizing b s with
  | zero => omega
  | succ n ih =>
    by_cases htw : s.takeWhile notSpace = []
    · have hnone := split_matchAt_none s htw
      cases s with
      | nil =>
        refine ⟨[], [], ?_, ?_, ?_, ?_, ?_, ?_⟩ <;> simp [findAllAux, hnone, weave]
      | cons c t =>
        have hc : isSpace c = true := by
          simp only [List.takeWhile] at htw
          cases hcs : notSpace c with
          | true => simp [hcs] at htw
          | false => simpa [notSpace] using hcs
        obtain ⟨w0, gaps, h1, h2, h3, h4, h5, h6⟩ := ih false t (by simpa using hn)
        have hunf : findAllAux perfdataSplitRegex (n + 1) b (c :: t) =
            findAllAux perfdataSplitRegex n false t := by
          simp only [findAllAux, hnone]
        rw [hunf]
        refine ⟨c :: w0, gaps, h1, ?_, ?_, h4, h5, h6⟩
        · rw [List.cons_append, ← h2]
        · intro a ha
          rcases List.mem_cons.1 ha with rfl | ha
          · exact hc
          · exact h3 a ha
    · obtain ⟨m, rest, hm, hne, hs, hhead, hlast, hrest⟩ := split_matchAt_token s htw
      have hlt : rest.length < n := by
        have := congrArg List.length hs
        simp only [List.length_append] at this
        have hmpos : 0 < m.length := List.length_pos.2 hne
        omega
      obtain ⟨w0, gaps, h1, h2, h3, h4, h5, h6⟩ := ih true rest hlt
      have hunf : findAllAux perfdataSplitRegex (n + 1) b s =
          m :: findAllAux perfdataSplitRegex n true rest := by
        simp only [findAllAux, hm, if_neg hne]
      rw [hunf]
      refine ⟨[], w0 :: gaps, by simp [h1], ?_, by simp, ?_, ?_, ?_⟩
      · simp only [List.nil_append, weave, List.append_assoc]
        rw [← h2]
        exact hs
      · intro g hg
        rcases List.mem_cons.1 hg with rfl | hg
        · exact h3
        · exact h4 g hg
      · intro i hi
        cases i with
        | zero =>
          simp only [List.getElem?_cons_zero, ne_eq, Option.some.injEq]
          intro hw0
          subst hw0
          -- a further token follows, so `rest` starts with it, not with white space
          simp only [List.length_cons] at hi
          cases htoks : findAllAux perfdataSplitRegex n true rest with
          | nil =>
            rw [htoks] at h1
            simp only [List.length_nil] at h1
            omega
          | cons t ts =>
            rw [htoks] at h1 h2 h6
            cases gaps with
            | nil => simp at h1
            | cons g gs =>
              obtain ⟨htne, ⟨c, hc1, hc2⟩, -⟩ := h6 t (List.mem_cons_self _ _)
              cases t with
              | nil => exact htne rfl
              | cons a t' =>
                simp only [List.head?_cons, Option.some.injEq] at hc1
                subst hc1
                simp only [weave, List.nil_append, List.cons_append] at h2
                rcases hrest with hr | ⟨c', u, hr, hsp⟩
                · rw [hr] at h2
                  cases h2
                · rw [hr] at h2
                  simp only [List.cons.injEq] at h2
                  rw [h2.1, hc2] at hsp
                  cases hsp
        | succ j =>
          simp only [List.getElem?_cons_succ]
          apply h5
          simp only [List.length_cons] at hi
          omega
      · intro t ht
        rcases List.mem_cons.1 ht with rfl | ht
        · exact ⟨hne, hhead, hlast⟩
        · exact h6 t ht

/-- C19: the input is `w0 ++ t1 ++ g1 ++ ... ++ tn ++ gn` where `t1 .. tn` are
the tokens of the tokenizer, in order, and `w0`, `g1 .. gn` are made of white
space only, `g1 .. g(n-1)` not empty; and every token is not empty and begins
and ends with a character that is not white space. -/
theorem FindAllString_tokens_and_gaps (s : Str) :
    ∃ (w0 : Str) (gaps : List Str),
      gaps.length = (FindAllString perfdataSplitRegex s).length ∧
      s = w0 ++ weave (FindAllString perfdataSplitRegex s) gaps ∧
      (∀ c ∈ w0, isSpace c = true) ∧
      (∀ g ∈ gaps, ∀ c ∈ g, isSpace c = true) ∧
      (∀ i : Nat, i + 1 < gaps.length → gaps[i]? ≠ some []) ∧
      (∀ t ∈ FindAllString perfdataSplitRegex s,
        t ≠ [] ∧ (∃ c, t.head? = some c ∧ isSpace c = false) ∧
          (∃ c, t.getLast? = some c ∧ isSpace c = false)) :=
  findAllAux_weave (s.length + 1) false s (Nat.lt_succ_self _)


/-! ## No index or slice out of range -/

theorem checkedThreshold_eq (L : GoLib) (b : Bool) (data : List Str) (k : Nat)
    (set : Perfdata L.Float64 → L.Float64 → Perfdata L.Float64) (pd : Perfdata L.Float64)
    (hk : b = true → k < data.length) :
    checkedThreshold L b data k set pd =
      some (parseThreshold L b (data.getD k []) set pd) := by
  unfold checkedThreshold parseThreshold
  cases b with
  | false => simp
  | true =>
    rw [getElem?_of_lt_getD data k (hk rfl)]
    simp only [if_true, Bool.true_and]
    by_cases hf : data.getD k [] ≠ []
    · have hf' : decide (data.getD k [] ≠ []) = true := by simpa using hf
      rw [if_pos hf, if_pos hf']
      cases parseFloat L (data.getD k []) with
      | error err => rfl
      | ok v => rfl
    · have hf' : ¬ decide (data.getD k [] ≠ []) = true := by simpa using hf
      rw [if_neg hf, if_neg hf']

theorem checkedLabelValue_eq (L : GoLib) (data : List Str) (pd : Perfdata L.Float64)
    (h0 : 0 < data.length) :
    checkedLabelValue L data pd = some (parseLabelValue L (data.getD 0 []) pd) := by
  unfold checkedLabelValue parseLabelValue
  rw [getElem?_of_lt_getD data 0 h0]
  generalize data.getD 0 [] = d
  simp only
  have hd := FindStringAnchored_label d
  by_cases h1 : FindStringAnchored perfdataLabelRegex d = []
  · rw [if_pos h1, if_pos h1]
  rw [if_neg h1, if_neg h1]
  by_cases h2 : (FindStringAnchored perfdataLabelRegex d).length = d.length
  · rw [if_pos h2, if_pos h2]
  rw [if_neg h2, if_neg h2]
  -- the label is a proper prefix of the field: the index after it is in range
  have aux : ∀ lab rest : Str, d = lab ++ rest → lab.length ≠ d.length →
      ∃ c, d[lab.length]? = some c ∧ d.getD lab.length ' ' = c ∧ ¬ d.length < lab.length + 1 := by
    intro lab rest hl hlen
    subst hl
    cases rest with
    | nil => simp at hlen
    | cons c u =>
      refine ⟨c, ?_, getD_append_cons _ _ _ _, by simp⟩
      have := getD_append_cons lab c u ' '
      simp only [List.getD_eq_getElem?_getD] at this
      have hlt : lab.length < (lab ++ c :: u).length := by simp
      rw [List.getElem?_eq_getElem hlt] at this ⊢
      simpa using this
  obtain ⟨c, hc1, hc2, hc3⟩ := aux _ _ hd h2
  rw [hc1, hc2]
  simp only
  by_cases h3 : c ≠ '='
  · rw [if_pos h3, if_pos h3]
  rw [if_neg h3, if_neg h3, if_neg hc3]
  by_cases h4 : FindStringAnchored perfdataValueRegex
      (d.drop ((FindStringAnchored perfdataLabelRegex d).length + 1)) = []
  · rw [if_pos h4, if_pos h4]
  rw [if_neg h4, if_neg h4]
  cases parseFloat L (FindStringAnchored perfdataValueRegex
      (d.drop ((FindStringAnchored perfdataLabelRegex d).length + 1))) with
  | error err => rfl
  | ok v =>
    simp only
    by_cases h5 : (FindStringAnchored perfdataValueRegex
        (d.drop ((FindStringAnchored perfdataLabelRegex d).length + 1))).length =
        (d.drop ((FindStringAnchored perfdataLabelRegex d).length + 1)).length
    · rw [if_pos h5, if_pos h5]
    · rw [if_neg h5, if_neg h5]
      have hle : ¬ (d.drop ((FindStringAnchored perfdataLabelRegex d).length + 1)).length <
          (FindStringAnchored perfdataValueRegex
            (d.drop ((FindStringAnchored perfdataLabelRegex d).length + 1))).length := by
        rw [FindStringAnchored_value]
        have := (List.takeWhile_sublist isNumChar
          (l := d.drop ((FindStringAnchored perfdataLabelRegex d).length + 1))).length_le
        omega
      rw [if_neg hle]

/-- C20: `perfdataParseValue` with every index and slice expression checked
never panics: for every entry its outcome is the record or the error that
`perfdataParseValue` returns.  In particular the `;`-split has an element at
index 0, and the label pattern matches a prefix of the first field, so the
index after the label is in range whenever the label is not the whole field. -/
theorem perfdataParseValueChecked_total (L : GoLib) (e : Str) :
    perfdataParseValueChecked L e = some (perfdataParseValue L e) ∧
    (∃ d, (stringsSplit ';' e)[0]? = some d ∧
      ∃ rest, d = FindStringAnchored perfdataLabelRegex d ++ rest ∧
        FindStringAnchored perfdataValueRegex
            (d.drop ((FindStringAnchored perfdataLabelRegex d).length + 1)) =
          (d.drop ((FindStringAnchored perfdataLabelRegex d).length + 1)).takeWhile isNumChar) := by
  have hpos := stringsSplit_length ';' e
  refine ⟨?_, ⟨(stringsSplit ';' e).getD 0 [], stringsSplit_head ';' e, _,
    FindStringAnchored_label _, FindStringAnchored_value _⟩⟩
  unfold perfdataParseValueChecked perfdataParseValue
  simp only
  by_cases hlen : (stringsSplit ';' e).length < 1 ∨ (stringsSplit ';' e).length > 5
  · rw [if_pos hlen, if_pos hlen]
  rw [if_neg hlen, if_neg hlen]
  rw [checkedThreshold_eq L _ _ 4 _ _ (by simp; omega)]
  cases parseThreshold L (decide ((stringsSplit ';' e).length = 5))
      ((stringsSplit ';' e).getD 4 []) (fun p v => { p with Max := v })
      { Label := [], Value := L.NaN, UOM := [], Warning := L.NaN, Critical := L.NaN,
        Min := L.NaN, Max := L.NaN } with
  | error err => rfl
  | ok p4 =>
    simp only
    rw [checkedThreshold_eq L _ _ 3 _ _ (by simp; omega)]
    cases parseThreshold L (decide ((stringsSplit ';' e).length ≥ 4))
        ((stringsSplit ';' e).getD 3 []) (fun p v => { p with Min := v }) p4 with
    | error err => rfl
    | ok p3 =>
      simp only
      rw [checkedThreshold_eq L _ _ 2 _ _ (by simp; omega)]
      cases parseThreshold L (decide ((stringsSplit ';' e).length ≥ 3))
          ((stringsSplit ';' e).getD 2 []) (fun p v => { p with Critical := v }) p3 with
      | error err => rfl
      | ok p2 =>
        simp only
        rw [checkedThreshold_eq L _ _ 1 _ _ (by simp; omega)]
        cases parseThreshold L (decide ((stringsSplit ';' e).length ≥ 2))
            ((stringsSplit ';' e).getD 1 []) (fun p v => { p with Warning := v }) p2 with
        | error err => rfl
        | ok p1 =>
          simp only
          exact checkedLabelValue_eq L _ p1 (by omega)

end NagiosPerfdata
